import Mathlib

/-!
Verification of the knowledge-graph generator (generate_kg.py) and the graph
normalizer (process_kg.py).

Modelling conventions:
* Python dicts are modelled as association lists (key/value pairs in insertion
  order, keys unique); lookup scans from the front.
* File / JSON I/O is a boundary: functions receive the already-loaded data
  (the schema as a list of lines, the catalog and the graph as association
  lists).
* The global pseudo-random stream of the `random` module is modelled by two
  oracle functions indexed by a call counter `k` that counts RNG calls made so
  far: `g k` is the float returned when the k-th RNG call is `random.random()`
  (the library guarantees a value in `[0,1)`, which theorems take as a
  hypothesis), and `c k` is the index drawn by `_randbelow` when the k-th RNG
  call is `random.choice`.  `random.choice` on an empty sequence raises, which
  is modelled by `Option`.
* Machine integers are `Nat` with explicit reduction modulo `2^32` (MD5) —
  Python integers are unbounded, so everything else is plain `Nat`.
-/

/-- First-match association-list lookup: the model of Python `d[k]` /
`k in d` for dicts (keys are unique in all states the programs build). -/
def alookup {α β : Type} [DecidableEq α] : List (α × β) → α → Option β
  | [], _ => none
  | (a, b) :: t, k => if k = a then some b else alookup t k

/-- Python `d[key] = v`: overwrite in place if the key is present (keeping its
position), otherwise append at the end (dict insertion order). -/
def dictInsert {β : Type} (d : List (String × β)) (key : String) (v : β) :
    List (String × β) :=
  match alookup d key with
  | some _ => d.map (fun kv => if kv.1 = key then (key, v) else kv)
  | none => d ++ [(key, v)]

/-- Python `set.add`: append the element if it is not already a member
(insertion-ordered model of a set; only the underlying element set matters,
since every set is sorted before being reported). -/
def setAdd {α : Type} [DecidableEq α] (l : List α) (v : α) : List α :=
  if v ∈ l then l else l ++ [v]

/-- `if k not in d: d[k] = set()` — ensure a key is present, initially empty. -/
def dictInitSet {α β : Type} [DecidableEq α] (d : List (α × List β)) (k : α) :
    List (α × List β) :=
  match alookup d k with
  | some _ => d
  | none => d ++ [(k, [])]

/-- `d[k].add(v)` for a dict of sets.  The callers in process_kg.py always
initialize the key first (Python would raise `KeyError` otherwise), so the
missing-key case never fires there; it is a no-op here. -/
def dictAddToSet {α β : Type} [DecidableEq α] [DecidableEq β]
    (d : List (α × List β)) (k : α) (v : β) : List (α × List β) :=
  d.map (fun kv => if kv.1 = k then (kv.1, setAdd kv.2 v) else kv)

/-! ## MD5 over byte lists (`hashlib.md5`), bytes and words as `Nat` -/

/-- UTF-8 encoding of one character (model of Python `str.encode('utf-8')`,
per character). -/
def utf8Char (ch : Char) : List Nat :=
  let n := ch.toNat
  if n < 128 then [n]
  else if n < 2048 then [192 ||| (n >>> 6), 128 ||| (n &&& 63)]
  else if n < 65536 then
    [224 ||| (n >>> 12), 128 ||| ((n >>> 6) &&& 63), 128 ||| (n &&& 63)]
  else
    [240 ||| (n >>> 18), 128 ||| ((n >>> 12) &&& 63),
     128 ||| ((n >>> 6) &&& 63), 128 ||| (n &&& 63)]

/-- `item.encode('utf-8')` as a list of byte values. -/
def utf8Encode (s : String) : List Nat :=
  s.data.foldr (fun ch acc => utf8Char ch ++ acc) []

/-- 2^32, the word modulus of MD5. -/
def m32 : Nat := 4294967296

/-- Bitwise complement on 32-bit words. -/
def not32 (a : Nat) : Nat := 4294967295 ^^^ a

/-- 32-bit left rotation. -/
def rotl32 (x c : Nat) : Nat := ((x <<< c) ||| (x >>> (32 - c))) % m32

/-- The MD5 per-round shift table. -/
def md5S : List Nat :=
  [7, 12, 17, 22, 7, 12, 17, 22, 7, 12, 17, 22, 7, 12, 17, 22,
   5, 9, 14, 20, 5, 9, 14, 20, 5, 9, 14, 20, 5, 9, 14, 20,
   4, 11, 16, 23, 4, 11, 16, 23, 4, 11, 16, 23, 4, 11, 16, 23,
   6, 10, 15, 21, 6, 10, 15, 21, 6, 10, 15, 21, 6, 10, 15, 21]

/-- The MD5 sine-derived constant table. -/
def md5K : List Nat :=
  [0xd76aa478, 0xe8c7b756, 0x242070db, 0xc1bdceee,
   0xf57c0faf, 0x4787c62a, 0xa8304613, 0xfd469501,
   0x698098d8, 0x8b44f7af, 0xffff5bb1, 0x895cd7be,
   0x6b901122, 0xfd987193, 0xa679438e, 0x49b40821,
   0xf61e2562, 0xc040b340, 0x265e5a51, 0xe9b6c7aa,
   0xd62f105d, 0x02441453, 0xd8a1e681, 0xe7d3fbc8,
   0x21e1cde6, 0xc33707d6, 0xf4d50d87, 0x455a14ed,
   0xa9e3e905, 0xfcefa3f8, 0x676f02d9, 0x8d2a4c8a,
   0xfffa3942, 0x8771f681, 0x6d9d6122, 0xfde5380c,
   0xa4beea44, 0x4bdecfa9, 0xf6bb4b60, 0xbebfbc70,
   0x289b7ec6, 0xeaa127fa, 0xd4ef3085, 0x04881d05,
   0xd9d4d039, 0xe6db99e5, 0x1fa27cf8, 0xc4ac5665,
   0xf4292244, 0x432aff97, 0xab9423a7, 0xfc93a039,
   0x655b59c3, 0x8f0ccc92, 0xffeff47d, 0x85845dd1,
   0x6fa87e4f, 0xfe2ce6e0, 0xa3014314, 0x4e0811a1,
   0xf7537e82, 0xbd3af235, 0x2ad7d2bb, 0xeb86d391]

/-- Low `count` bytes of `n`, little-endian. -/
def toLEBytes (n : Nat) : Nat → List Nat
  | 0 => []
  | count + 1 => (n % 256) :: toLEBytes (n / 256) count

/-- MD5 padding: append 0x80, zero bytes up to 56 mod 64, then the bit length
as 8 little-endian bytes (mod 2^64). -/
def padMessage (msg : List Nat) : List Nat :=
  msg ++ [128] ++ List.replicate ((119 - msg.length % 64) % 64) 0
      ++ toLEBytes (8 * msg.length) 8

/-- A 4-byte little-endian slice as a 32-bit word. -/
def leWord (bytes : List Nat) : Nat :=
  bytes.foldr (fun b acc => acc * 256 + b) 0

/-- The sixteen 32-bit message words of one 64-byte chunk. -/
def chunkWords (chunk : List Nat) : List Nat :=
  (List.range 16).map (fun i => leWord ((chunk.drop (4 * i)).take 4))

/-- The MD5 round mixing function for round `i`. -/
def md5F (i b c d : Nat) : Nat :=
  if i < 16 then (b &&& c) ||| (not32 b &&& d)
  else if i < 32 then (d &&& b) ||| (not32 d &&& c)
  else if i < 48 then b ^^^ c ^^^ d
  else c ^^^ (b ||| not32 d)

/-- The MD5 message-word schedule. -/
def md5G (i : Nat) : Nat :=
  if i < 16 then i
  else if i < 32 then (5 * i + 1) % 16
  else if i < 48 then (3 * i + 5) % 16
  else (7 * i) % 16

/-- One MD5 round on state `(a, b, c, d)`. -/
def md5Step (M : List Nat) (st : Nat × Nat × Nat × Nat) (i : Nat) :
    Nat × Nat × Nat × Nat :=
  let f := (md5F i st.2.1 st.2.2.1 st.2.2.2 + st.1 + md5K.getD i 0
            + M.getD (md5G i) 0) % m32
  (st.2.2.2, (st.2.1 + rotl32 f (md5S.getD i 0)) % m32, st.2.1, st.2.2.1)

/-- Process one 64-byte chunk: 64 rounds, then add into the running state. -/
def md5Chunk (st : Nat × Nat × Nat × Nat) (chunk : List Nat) :
    Nat × Nat × Nat × Nat :=
  let r := (List.range 64).foldl (md5Step (chunkWords chunk)) st
  ((st.1 + r.1) % m32, (st.2.1 + r.2.1) % m32,
   (st.2.2.1 + r.2.2.1) % m32, (st.2.2.2 + r.2.2.2) % m32)

/-- Split a (padded) message into its 64-byte chunks. -/
def chunks64 (l : List Nat) : List (List Nat) :=
  (List.range (l.length / 64)).map (fun i => (l.drop (64 * i)).take 64)

/-- The 16-byte MD5 digest of a byte list. -/
def md5Digest (msg : List Nat) : List Nat :=
  let r := (chunks64 (padMessage msg)).foldl md5Chunk
    (0x67452301, 0xefcdab89, 0x98badcfe, 0x10325476)
  toLEBytes r.1 4 ++ toLEBytes r.2.1 4 ++ toLEBytes r.2.2.1 4
    ++ toLEBytes r.2.2.2 4

/-- `int(hashlib.md5(s.encode('utf-8')).hexdigest(), 16)`: the big-endian
unsigned-integer reading of the 16 digest bytes of the label's UTF-8 bytes. -/
def md5Int (s : String) : Nat :=
  (md5Digest (utf8Encode s)).foldl (fun acc b => acc * 256 + b) 0

/-- process_kg.get_id: return the stored identifier if the item is a key of
the mapping, else store and return the MD5-derived identifier.  Returns the
identifier together with the updated mapping (the Python function mutates the
dict in place). -/
def get_id (item : String) (mapping : List (String × Nat)) :
    Nat × List (String × Nat) :=
  match alookup mapping item with
  | some v => (v, mapping)
  | none => (md5Int item, mapping ++ [(item, md5Int item)])

/-! ## Triple-string parsing (process_kg.parse_triple_string)

Python string primitives are modelled directly over the character list of
the string (the Lean core versions are implemented on byte positions by
well-founded recursion and do not evaluate inside the kernel). -/

/-- Python str.strip(): remove leading and trailing whitespace. -/
def pyStrip (s : String) : String :=
  ⟨((s.data.dropWhile Char.isWhitespace).reverse.dropWhile
      Char.isWhitespace).reverse⟩

/-- Split a character list at every comma, keeping empty parts — the
semantics of Python str.split(',') (never returns an empty list). -/
def splitCommaAux : List Char → List (List Char)
  | [] => [[]]
  | ch :: t =>
    match splitCommaAux t with
    | [] => [[]]
    | cur :: rest =>
      if ch = ',' then [] :: cur :: rest else (ch :: cur) :: rest

/-- Python s.split(','). -/
def pySplitComma (s : String) : List String :=
  (splitCommaAux s.data).map (fun l => ⟨l⟩)

/-- Python s.startswith(ch) for a one-character needle. -/
def pyStartsWith (s : String) (ch : Char) : Bool :=
  match s.data with
  | [] => false
  | c :: _ => c == ch

/-- Python s.endswith(ch) for a one-character needle. -/
def pyEndsWith (s : String) (ch : Char) : Bool :=
  match s.data.getLast? with
  | none => false
  | some c => c == ch

/-- Python s[1:-1]: drop the first and the last character. -/
def pyDropEnds (s : String) : String :=
  ⟨(s.data.drop 1).dropLast⟩

/-- process_kg.parse_triple_string: strip, remove one surrounding pair of
parens when both are present, split on commas, strip each part. -/
def parse_triple_string (s : String) : List String :=
  let t := pyStrip s
  let u := if pyStartsWith t '(' && pyEndsWith t ')' then pyDropEnds t else t
  (pySplitComma u).map pyStrip

/-! ## The graph normalizer (process_kg.main processing loop) -/

/-- The five in-memory tables of process_kg.main. -/
structure PState where
  node_type_map : List (String × Nat)
  edge_type_map : List (String × Nat)
  instance_map : List (String × Nat)
  node_type_instances : List (Nat × List Nat)
  node_type_instances_labels : List (String × List String)

/-- The body of the inner `for instance_str in instance_list` loop: parse the
edge; on a well-formed edge, assign/look up instance identifiers and record
subject then object in both type indexes (the predicate part is parsed but
unused).  A malformed edge is skipped with a warning. -/
def processEdge (subj_type_id obj_type_id : Nat)
    (subj_type_str obj_type_str : String) (st : PState)
    (instance_str : String) : PState :=
  match parse_triple_string instance_str with
  | [subj_inst_str, _pred_inst_str, obj_inst_str] =>
    let r1 := get_id subj_inst_str st.instance_map
    let r2 := get_id obj_inst_str r1.2
    { st with
      instance_map := r2.2,
      node_type_instances :=
        dictAddToSet (dictAddToSet st.node_type_instances subj_type_id
          r1.1) obj_type_id r2.1,
      node_type_instances_labels :=
        dictAddToSet (dictAddToSet st.node_type_instances_labels
          subj_type_str subj_inst_str) obj_type_str obj_inst_str }
  | _ => st

/-- The body of the outer `for key_pattern, instance_list in data.items()`
loop: parse the key; on a well-formed key, assign/look up the type
identifiers, initialize the four index entries, then fold over the edge
list.  A malformed key is skipped with a warning. -/
def processEntry (st : PState) (entry : String × List String) : PState :=
  match parse_triple_string entry.1 with
  | [subj_type_str, edge_type_str, obj_type_str] =>
    let r1 := get_id subj_type_str st.node_type_map
    let r2 := get_id obj_type_str r1.2
    let r3 := get_id edge_type_str st.edge_type_map
    entry.2.foldl
      (processEdge r1.1 r2.1 subj_type_str obj_type_str)
      { node_type_map := r2.2,
        edge_type_map := r3.2,
        instance_map := st.instance_map,
        node_type_instances :=
          dictInitSet (dictInitSet st.node_type_instances r1.1) r2.1,
        node_type_instances_labels :=
          dictInitSet
            (dictInitSet st.node_type_instances_labels subj_type_str)
            obj_type_str }
  | _ => st

/-- All five tables start empty. -/
def initState : PState := ⟨[], [], [], [], []⟩

/-- The whole normalization pass over the loaded graph JSON (an association
list of relation key → edge-string list, in file order). -/
def processGraph (data : List (String × List String)) : PState :=
  data.foldl processEntry initState

/-- Finalization: `{k: sorted(list(v)) for k, v in d.items()}`. -/
def finalizeIndex {α β : Type} [LinearOrder β] (d : List (α × List β)) :
    List (α × List β) :=
  d.map (fun kv => (kv.1, kv.2.insertionSort (· ≤ ·)))

/-- The serialized node-type-ID → sorted instance-ID list table. -/
def final_node_instances (data : List (String × List String)) :
    List (Nat × List Nat) :=
  finalizeIndex (processGraph data).node_type_instances

/-- The serialized node-type-label → sorted instance-label list table. -/
def final_node_instances_labels (data : List (String × List String)) :
    List (String × List String) :=
  finalizeIndex (processGraph data).node_type_instances_labels

/-- The (type label, instance label) occurrences scanned from one edge: the
subject pair then the object pair when the edge is well-formed, else none. -/
def edgeOcc1 (subj_type_str obj_type_str : String) (e : String) :
    List (String × String) :=
  match parse_triple_string e with
  | [a, _, c] => [(subj_type_str, a), (obj_type_str, c)]
  | _ => []

/-- The (type label, instance label) occurrences scanned from one edge list,
in scan order. -/
def edgeOccs (subj_type_str obj_type_str : String) (edges : List String) :
    List (String × String) :=
  edges.foldr (fun e acc => edgeOcc1 subj_type_str obj_type_str e ++ acc) []

/-- The (type label, instance label) occurrences of one graph entry. -/
def entryOccs (entry : String × List String) : List (String × String) :=
  match parse_triple_string entry.1 with
  | [st, _, ot] => edgeOccs st ot entry.2
  | _ => []

/-- All (type label, instance label) occurrences of the input graph. -/
def occList (data : List (String × List String)) : List (String × String) :=
  data.foldr (fun entry acc => entryOccs entry ++ acc) []

/-- The node-type labels of one well-formed relation key (subject type then
object type), or none for a malformed key. -/
def entryTypes (entry : String × List String) : List String :=
  match parse_triple_string entry.1 with
  | [st, _, ot] => [st, ot]
  | _ => []

/-- The node-type labels read off the well-formed relation keys, in scan
order. -/
def typeLabels (data : List (String × List String)) : List String :=
  data.foldr (fun entry acc => entryTypes entry ++ acc) []

/-! ## The graph generator (generate_kg.py) -/

/-- A schema relation (SubjectType, predicate, ObjectType). -/
abbrev Triple := String × String × String

/-- The f-string `f"({x},{y},{z})"` used for both relation keys and edges. -/
def tripleStr (x y z : String) : String :=
  "(" ++ x ++ "," ++ y ++ "," ++ z ++ ")"

/-- generate_kg.UNIQUE_SUBJECT_RELATIONS (empty in the source). -/
def uniqueSubjectRelations : List String := []

/-- generate_kg.UNIQUE_OBJECT_RELATIONS. -/
def uniqueObjectRelations : List String :=
  ["(City,companyLocation,Company)",
   "(City,universityLocation,University)",
   "(State,stateOf,City)",
   "(University,hasCollege,College)",
   "(College,hasDepartment,Department)",
   "(Department,offersCourse,Course)",
   "(Degree,degreeMajor,Major)",
   "(Degree,degreeLevel,DegreeLevel)",
   "(Course,courseSubject,Subject)"]

/-- The body of one schema line of parse_schema: strip; skip blank lines;
on a parenthesized line whose inside splits into exactly 3 parts, append the
stripped triple; otherwise skip. -/
def parseLine (relations : List Triple) (line : String) : List Triple :=
  let l := pyStrip line
  if l = "" then relations
  else if pyStartsWith l '(' && pyEndsWith l ')' then
    match (pySplitComma (pyDropEnds l)).map pyStrip with
    | [a, b, c] => relations ++ [(a, b, c)]
    | _ => relations
  else relations

/-- generate_kg.parse_schema.  The file read is modelled as the list of the
file's lines together with `failAfter`: `none` means the read completes,
`some i` means an exception (missing file when `i = 0`: `open` fails before
any line is delivered; otherwise an I/O or decode error mid-iteration) is
raised after `i` lines were delivered.  The `except` clause catches the
exception, prints, and the function returns the `relations` accumulated so
far. -/
def parse_schema (lines : List String) (failAfter : Option Nat) :
    List Triple :=
  (match failAfter with
   | none => lines
   | some i => lines.take i).foldl parseLine []

/-- `random.choice(l)` where `c k` is the raw index drawn by the underlying
`_randbelow` at RNG-call counter `k`; raises (`none`) on an empty sequence. -/
def rchoice (c : Nat → Nat) (k : Nat) : List String → Option String
  | [] => none
  | x :: xs => some ((x :: xs).get ⟨c k % (x :: xs).length, Nat.mod_lt _ (Nat.succ_pos _)⟩)

/-- The inner `for o in objs` loop of the MANY_TO_MANY branch for a fixed
subject `s`: one `random.random()` draw per object, emit on `draw < p`. -/
def genPairsInner (g : Nat → ℚ) (p : ℚ) (pr s : String) :
    List String → Nat → List String × Nat
  | [], k => ([], k)
  | o :: rest, k =>
    match genPairsInner g p pr s rest (k + 1) with
    | (es, kk) => if g k < p then (tripleStr s pr o :: es, kk) else (es, kk)

/-- The MANY_TO_MANY branch: iterate subjects (subject-major), the inner loop
iterating objects.  Total: no `random.choice` is reached. -/
def genMany (g : Nat → ℚ) (p : ℚ) (pr : String) (objs : List String) :
    List String → Nat → List String × Nat
  | [], k => ([], k)
  | s :: rest, k =>
    match genPairsInner g p pr s objs k with
    | (es, k1) =>
      match genMany g p pr objs rest k1 with
      | (es2, k2) => (es ++ es2, k2)

/-- The UNIQUE_OBJECT branch: one draw per object; on `draw < p`, a
`random.choice` over the subjects (raising, hence `none`, if the subject list
is empty), emitting `(s,pred,o)`. -/
def genUniqueObject (g : Nat → ℚ) (c : Nat → Nat) (p : ℚ) (pr : String)
    (subjs : List String) : List String → Nat → Option (List String × Nat)
  | [], k => some ([], k)
  | o :: rest, k =>
    if g k < p then
      match rchoice c (k + 1) subjs with
      | none => none
      | some s =>
        match genUniqueObject g c p pr subjs rest (k + 2) with
        | none => none
        | some (es, kk) => some (tripleStr s pr o :: es, kk)
    else genUniqueObject g c p pr subjs rest (k + 1)

/-- The UNIQUE_SUBJECT branch: one draw per subject; on `draw < p`, a
`random.choice` over the objects, emitting `(s,pred,o)`. -/
def genUniqueSubject (g : Nat → ℚ) (c : Nat → Nat) (p : ℚ) (pr : String)
    (objs : List String) : List String → Nat → Option (List String × Nat)
  | [], k => some ([], k)
  | s :: rest, k =>
    if g k < p then
      match rchoice c (k + 1) objs with
      | none => none
      | some o =>
        match genUniqueSubject g c p pr objs rest (k + 2) with
        | none => none
        | some (es, kk) => some (tripleStr s pr o :: es, kk)
    else genUniqueSubject g c p pr objs rest (k + 1)

/-- Edge-list generation for one relation that passed the presence check:
dispatch on the two constraint lists (UNIQUE_OBJECT checked first, then
UNIQUE_SUBJECT, default MANY_TO_MANY). -/
def genRelation (g : Nat → ℚ) (c : Nat → Nat) (p : ℚ) (rel : Triple)
    (subjs objs : List String) (k : Nat) : Option (List String × Nat) :=
  if tripleStr rel.1 rel.2.1 rel.2.2 ∈ uniqueObjectRelations then
    genUniqueObject g c p rel.2.1 subjs objs k
  else if tripleStr rel.1 rel.2.1 rel.2.2 ∈ uniqueSubjectRelations then
    genUniqueSubject g c p rel.2.1 objs subjs k
  else some (genMany g p rel.2.1 objs subjs k)

/-- The main loop of generate_kg over the schema relations, threading the
`kg_data` dict and the RNG-call counter; a relation whose subject or object
type is absent from the catalog is skipped (no key stored, no draw
consumed). -/
def generate_kg_go (g : Nat → ℚ) (c : Nat → Nat) (p : ℚ)
    (cat : List (String × List String)) :
    List Triple → List (String × List String) → Nat →
      Option (List (String × List String) × Nat)
  | [], kg, k => some (kg, k)
  | rel :: rest, kg, k =>
    match alookup cat rel.1 with
    | none => generate_kg_go g c p cat rest kg k
    | some subjs =>
      match alookup cat rel.2.2 with
      | none => generate_kg_go g c p cat rest kg k
      | some objs =>
        match genRelation g c p rel subjs objs k with
        | none => none
        | some (es, k1) =>
          generate_kg_go g c p cat rest
            (dictInsert kg (tripleStr rel.1 rel.2.1 rel.2.2) es) k1

/-- Like generate_kg_go but keeping every write as a log entry instead of the
dict-overwrite semantics; used to state which occurrence of a duplicated
relation key the dict retains. -/
def generate_kg_log (g : Nat → ℚ) (c : Nat → Nat) (p : ℚ)
    (cat : List (String × List String)) :
    List Triple → Nat → Option (List (String × List String) × Nat)
  | [], k => some ([], k)
  | rel :: rest, k =>
    match alookup cat rel.1 with
    | none => generate_kg_log g c p cat rest k
    | some subjs =>
      match alookup cat rel.2.2 with
      | none => generate_kg_log g c p cat rest k
      | some objs =>
        match genRelation g c p rel subjs objs k with
        | none => none
        | some (es, k1) =>
          match generate_kg_log g c p cat rest k1 with
          | none => none
          | some (log, k2) =>
            some ((tripleStr rel.1 rel.2.1 rel.2.2, es) :: log, k2)

/-- generate_kg on already-loaded inputs: an empty schema aborts (`None`
returned, nothing written); otherwise run the main loop from an empty dict
and counter 0.  `none` also models the uncaught `random.choice` exception. -/
def generate_kg (g : Nat → ℚ) (c : Nat → Nat) (relations : List Triple)
    (cat : List (String × List String)) (p : ℚ) :
    Option (List (String × List String)) :=
  if relations = [] then none
  else
    match generate_kg_go g c p cat relations [] 0 with
    | none => none
    | some (kg, _) => some kg

/-! ## Basic lemmas about the dictionary model -/

theorem alookup_mem {α β : Type} [DecidableEq α] {m : List (α × β)} {k : α}
    {v : β} (h : alookup m k = some v) : (k, v) ∈ m := by
  induction m with
  | nil => simp [alookup] at h
  | cons kv t ih =>
    obtain ⟨a, b⟩ := kv
    by_cases hk : k = a
    · subst hk
      simp [alookup] at h
      simp [h]
    · simp [alookup, hk] at h
      exact List.mem_cons_of_mem _ (ih h)

theorem alookup_append_left {α β : Type} [DecidableEq α] {m : List (α × β)}
    {k : α} {v : β} (n : List (α × β)) (h : alookup m k = some v) :
    alookup (m ++ n) k = some v := by
  induction m with
  | nil => simp [alookup] at h
  | cons kv t ih =>
    by_cases hk : k = kv.1
    · simp [alookup, hk] at h ⊢
      exact h
    · simp [alookup, hk] at h ⊢
      exact ih h

theorem alookup_append_right {α β : Type} [DecidableEq α] {m : List (α × β)}
    {k : α} (n : List (α × β)) (h : alookup m k = none) :
    alookup (m ++ n) k = alookup n k := by
  induction m with
  | nil => simp
  | cons kv t ih =>
    by_cases hk : k = kv.1
    · simp [alookup, hk] at h
    · simp [alookup, hk] at h ⊢
      exact ih h

/-! ## The MD5-derived identifier is a 128-bit value -/

theorem toLEBytes_length (n count : Nat) : (toLEBytes n count).length = count := by
  induction count generalizing n with
  | zero => rfl
  | succ c ih => simp [toLEBytes, ih]

theorem toLEBytes_lt {n count b : Nat} (h : b ∈ toLEBytes n count) : b < 256 := by
  induction count generalizing n with
  | zero => simp [toLEBytes] at h
  | succ c ih =>
    simp [toLEBytes] at h
    rcases h with h | h
    · omega
    · exact ih h

theorem md5Digest_length (msg : List Nat) : (md5Digest msg).length = 16 := by
  simp [md5Digest, toLEBytes_length]

theorem md5Digest_lt {msg : List Nat} {b : Nat} (h : b ∈ md5Digest msg) :
    b < 256 := by
  simp only [md5Digest, List.mem_append] at h
  rcases h with ((h | h) | h) | h <;> exact toLEBytes_lt h

theorem foldl_byte_bound (l : List Nat) (a : Nat) (h : ∀ b ∈ l, b < 256) :
    l.foldl (fun acc b => acc * 256 + b) a < (a + 1) * 256 ^ l.length := by
  induction l generalizing a with
  | nil => simp
  | cons b t ih =>
    have hb : b < 256 := h b (List.mem_cons_self b t)
    calc (b :: t).foldl (fun acc b => acc * 256 + b) a
        = t.foldl (fun acc b => acc * 256 + b) (a * 256 + b) := rfl
      _ < (a * 256 + b + 1) * 256 ^ t.length :=
          ih (a * 256 + b) (fun x hx => h x (List.mem_cons_of_mem _ hx))
      _ ≤ ((a + 1) * 256) * 256 ^ t.length :=
          Nat.mul_le_mul_right _ (by omega)
      _ = (a + 1) * 256 ^ (b :: t).length := by
          simp [List.length_cons, pow_succ]; ring

theorem md5Int_lt (s : String) : md5Int s < 2 ^ 128 := by
  have h := foldl_byte_bound (md5Digest (utf8Encode s)) 0
    (fun b hb => md5Digest_lt hb)
  rw [md5Digest_length] at h
  calc md5Int s < (0 + 1) * 256 ^ 16 := h
    _ = 2 ^ 128 := by norm_num

/-! ## get_id lemmas -/

/-- Every value stored in a mapping is the MD5 identifier of its key; this is
an invariant of every mapping table the programs build (they are only written
through get_id). -/
def MapGood (m : List (String × Nat)) : Prop :=
  ∀ kv ∈ m, kv.2 = md5Int kv.1

theorem mapGood_nil : MapGood [] := by intro kv h; simp at h

theorem get_id_of_found {item : String} {m : List (String × Nat)} {v : Nat}
    (h : alookup m item = some v) : get_id item m = (v, m) := by
  simp [get_id, h]

theorem get_id_of_new {item : String} {m : List (String × Nat)}
    (h : alookup m item = none) :
    get_id item m = (md5Int item, m ++ [(item, md5Int item)]) := by
  simp [get_id, h]

theorem get_id_fst {item : String} {m : List (String × Nat)} (hm : MapGood m) :
    (get_id item m).1 = md5Int item := by
  unfold get_id
  cases h : alookup m item with
  | none => rfl
  | some v => exact hm (item, v) (alookup_mem h)

theorem get_id_good {item : String} {m : List (String × Nat)} (hm : MapGood m) :
    MapGood (get_id item m).2 := by
  unfold get_id
  cases h : alookup m item with
  | none =>
    intro kv hkv
    simp at hkv
    rcases hkv with hkv | hkv
    · exact hm kv hkv
    · simp [hkv]
  | some v => exact hm

/-- C1: get_id returns the stored identifier when the label is a key of the
table, otherwise stores and returns the big-endian integer reading of the
128-bit MD5 hash of the label's UTF-8 bytes; on tables populated by get_id
the result is determined by the label alone, and it always lies in
[0, 2^128). -/
theorem c1_get_id_spec :
    (∀ (item : String) (m : List (String × Nat)) (v : Nat),
      alookup m item = some v → get_id item m = (v, m)) ∧
    (∀ (item : String) (m : List (String × Nat)),
      alookup m item = none →
        get_id item m = (md5Int item, m ++ [(item, md5Int item)])) ∧
    (∀ (item : String) (m : List (String × Nat)),
      MapGood m → (get_id item m).1 = md5Int item) ∧
    (∀ (item : String) (m : List (String × Nat)),
      MapGood m → (get_id item m).1 < 2 ^ 128) :=
  ⟨fun _ _ _ h => get_id_of_found h,
   fun _ _ h => get_id_of_new h,
   fun _ _ hm => get_id_fst hm,
   fun item m hm => by rw [get_id_fst hm]; exact md5Int_lt item⟩

/-- Witness for C1 at concrete inputs: a table holding "a", a fresh lookup of
"b" on it, and the empty (trivially get_id-built) table. -/
theorem c1_get_id_spec_witness :
    get_id "a" [("a", md5Int "a")] = (md5Int "a", [("a", md5Int "a")]) ∧
    get_id "b" [("a", md5Int "a")]
      = (md5Int "b", [("a", md5Int "a"), ("b", md5Int "b")]) ∧
    (get_id "a" []).1 = md5Int "a" ∧
    (get_id "a" []).1 < 2 ^ 128 := by
  refine ⟨c1_get_id_spec.1 "a" [("a", md5Int "a")] (md5Int "a") (by simp [alookup]),
    ?_, c1_get_id_spec.2.2.1 "a" [] mapGood_nil,
    c1_get_id_spec.2.2.2 "a" [] mapGood_nil⟩
  have h := c1_get_id_spec.2.1 "b" [("a", md5Int "a")] (by simp [alookup])
  exact h

/-! ## C2: MANY_TO_MANY at p = 1 -/

theorem genPairsInner_of_all_lt {g : Nat → ℚ} {p : ℚ} (pr s : String)
    (objs : List String) (k : Nat) (hg : ∀ n, g n < p) :
    genPairsInner g p pr s objs k
      = (objs.map (fun o => tripleStr s pr o), k + objs.length) := by
  induction objs generalizing k with
  | nil => simp [genPairsInner]
  | cons o rest ih =>
    simp [genPairsInner, ih (k + 1), hg k]
    omega

theorem genMany_of_all_lt {g : Nat → ℚ} {p : ℚ} (pr : String)
    (objs subjs : List String) (k : Nat) (hg : ∀ n, g n < p) :
    genMany g p pr objs subjs k
      = (subjs.flatMap (fun s => objs.map (fun o => tripleStr s pr o)),
         k + subjs.length * objs.length) := by
  induction subjs generalizing k with
  | nil => simp [genMany]
  | cons s rest ih =>
    simp [genMany, genPairsInner_of_all_lt pr s objs k hg,
      ih (k + objs.length)]
    ring

theorem bind_map_length (subjs objs : List String) (f : String → String → String) :
    (subjs.flatMap (fun s => objs.map (fun o => f s o))).length
      = subjs.length * objs.length := by
  induction subjs with
  | nil => simp
  | cons s rest ih => simp [ih]; ring

/-- C2: a relation in neither constraint list whose types passed the
presence check, generated with p = 1, yields exactly one edge per ordered
(subject, object) pair of the Cartesian product, in subject-major catalog
order, consuming one draw per pair. -/
theorem c2_many_to_many_full (g : Nat → ℚ) (c : Nat → Nat)
    (st pr ot : String) (subjs objs : List String) (k : Nat)
    (hUO : tripleStr st pr ot ∉ uniqueObjectRelations)
    (hUS : tripleStr st pr ot ∉ uniqueSubjectRelations)
    (hg : ∀ n, g n < 1) :
    genRelation g c 1 (st, pr, ot) subjs objs k
      = some (subjs.flatMap (fun s => objs.map (fun o => tripleStr s pr o)),
              k + subjs.length * objs.length) ∧
    (subjs.flatMap (fun s => objs.map (fun o => tripleStr s pr o))).length
      = subjs.length * objs.length := by
  constructor
  · simp only [genRelation, if_neg hUO, if_neg hUS]
    rw [genMany_of_all_lt pr objs subjs k hg]
  · exact bind_map_length subjs objs (fun s o => tripleStr s pr o)

/-- Witness for C2: the relation (A,r,B) with two subjects and one object at
p = 1 produces both edges in subject-major order, from any stream below 1. -/
theorem c2_many_to_many_full_witness :
    genRelation (fun _ => (0 : ℚ)) (fun _ => 0) 1 ("A", "r", "B")
        ["s1", "s2"] ["o1"] 0
      = some (["s1", "s2"].flatMap
          (fun s => ["o1"].map (fun o => tripleStr s "r" o)), 0 + 2 * 1) ∧
    (["s1", "s2"].flatMap (fun s => ["o1"].map (fun o => tripleStr s "r" o))).length
      = 2 * 1 :=
  c2_many_to_many_full (fun _ => 0) (fun _ => 0) "A" "r" "B"
    ["s1", "s2"] ["o1"] 0 (by decide) (by decide) (fun n => by norm_num)

/-! ## C3 and C9: the constrained branches -/

theorem rchoice_mem {c : Nat → Nat} {k : Nat} {l : List String} {s : String}
    (h : rchoice c k l = some s) : s ∈ l := by
  cases l with
  | nil => simp [rchoice] at h
  | cons x xs =>
    simp [rchoice] at h
    rw [← h]
    exact List.getElem_mem _

theorem rchoice_isSome {c : Nat → Nat} {k : Nat} {l : List String}
    (h : l ≠ []) : ∃ s, rchoice c k l = some s := by
  cases l with
  | nil => exact absurd rfl h
  | cons x xs => exact ⟨_, rfl⟩

/-- Every successful UNIQUE_OBJECT run arises from a list of
(chosen subject, object) pairs whose objects form a sublist of the object
catalog entry (hence pairwise distinct objects when the entry is) and whose
subjects come from the subject catalog entry. -/
theorem genUniqueObject_pairs {g : Nat → ℚ} {c : Nat → Nat} {p : ℚ}
    {pr : String} {subjs : List String} :
    ∀ {objs : List String} {k : Nat} {es : List String} {k1 : Nat},
      genUniqueObject g c p pr subjs objs k = some (es, k1) →
      ∃ pairs : List (String × String),
        es = pairs.map (fun q => tripleStr q.1 pr q.2) ∧
        (pairs.map Prod.snd).Sublist objs ∧ ∀ q ∈ pairs, q.1 ∈ subjs := by
  intro objs
  induction objs with
  | nil =>
    intro k es k1 h
    simp [genUniqueObject] at h
    exact ⟨[], by simp [h.1], by simp, by simp⟩
  | cons o rest ih =>
    intro k es k1 h
    simp only [genUniqueObject] at h
    by_cases hd : g k < p
    · rw [if_pos hd] at h
      cases hc : rchoice c (k + 1) subjs with
      | none => rw [hc] at h; simp at h
      | some s =>
        rw [hc] at h
        cases hr : genUniqueObject g c p pr subjs rest (k + 2) with
        | none => rw [hr] at h; simp at h
        | some res =>
          obtain ⟨es', kk⟩ := res
          rw [hr] at h
          simp at h
          obtain ⟨pairs, hp1, hp2, hp3⟩ := ih hr
          refine ⟨(s, o) :: pairs, ?_, ?_, ?_⟩
          · simp [← h.1, hp1]
          · simpa using List.Sublist.cons₂ o hp2
          · intro q hq
            rcases List.mem_cons.mp hq with hq | hq
            · rw [hq]; exact rchoice_mem hc
            · exact hp3 q hq
    · rw [if_neg hd] at h
      obtain ⟨pairs, hp1, hp2, hp3⟩ := ih h
      exact ⟨pairs, hp1, hp2.cons o, hp3⟩

/-- Mirror image of genUniqueObject_pairs for the UNIQUE_SUBJECT branch. -/
theorem genUniqueSubject_pairs {g : Nat → ℚ} {c : Nat → Nat} {p : ℚ}
    {pr : String} {objs : List String} :
    ∀ {subjs : List String} {k : Nat} {es : List String} {k1 : Nat},
      genUniqueSubject g c p pr objs subjs k = some (es, k1) →
      ∃ pairs : List (String × String),
        es = pairs.map (fun q => tripleStr q.1 pr q.2) ∧
        (pairs.map Prod.fst).Sublist subjs ∧ ∀ q ∈ pairs, q.2 ∈ objs := by
  intro subjs
  induction subjs with
  | nil =>
    intro k es k1 h
    simp [genUniqueSubject] at h
    exact ⟨[], by simp [h.1], by simp, by simp⟩
  | cons s rest ih =>
    intro k es k1 h
    simp only [genUniqueSubject] at h
    by_cases hd : g k < p
    · rw [if_pos hd] at h
      cases hc : rchoice c (k + 1) objs with
      | none => rw [hc] at h; simp at h
      | some o =>
        rw [hc] at h
        cases hr : genUniqueSubject g c p pr objs rest (k + 2) with
        | none => rw [hr] at h; simp at h
        | some res =>
          obtain ⟨es', kk⟩ := res
          rw [hr] at h
          simp at h
          obtain ⟨pairs, hp1, hp2, hp3⟩ := ih hr
          refine ⟨(s, o) :: pairs, ?_, ?_, ?_⟩
          · simp [← h.1, hp1]
          · simpa using List.Sublist.cons₂ s hp2
          · intro q hq
            rcases List.mem_cons.mp hq with hq | hq
            · rw [hq]; exact rchoice_mem hc
            · exact hp3 q hq
    · rw [if_neg hd] at h
      obtain ⟨pairs, hp1, hp2, hp3⟩ := ih h
      exact ⟨pairs, hp1, hp2.cons s, hp3⟩

/-- C3: a UNIQUE_OBJECT relation emits at most one edge per object — the
edge list is indexed by a duplicate-free-when-the-catalog-is sublist of the
objects, so it has at most |objects| edges; symmetrically a UNIQUE_SUBJECT
run emits at most one edge per subject. -/
theorem c3_unique_cardinality :
    (∀ (g : Nat → ℚ) (c : Nat → Nat) (p : ℚ) (st pr ot : String)
       (subjs objs es : List String) (k k1 : Nat),
      tripleStr st pr ot ∈ uniqueObjectRelations →
      genRelation g c p (st, pr, ot) subjs objs k = some (es, k1) →
      es.length ≤ objs.length ∧
      ∃ pairs : List (String × String),
        es = pairs.map (fun q => tripleStr q.1 pr q.2) ∧
        (pairs.map Prod.snd).Sublist objs ∧ (∀ q ∈ pairs, q.1 ∈ subjs) ∧
        (objs.Nodup → (pairs.map Prod.snd).Nodup)) ∧
    (∀ (g : Nat → ℚ) (c : Nat → Nat) (p : ℚ) (pr : String)
       (subjs objs es : List String) (k k1 : Nat),
      genUniqueSubject g c p pr objs subjs k = some (es, k1) →
      es.length ≤ subjs.length ∧
      ∃ pairs : List (String × String),
        es = pairs.map (fun q => tripleStr q.1 pr q.2) ∧
        (pairs.map Prod.fst).Sublist subjs ∧ (∀ q ∈ pairs, q.2 ∈ objs) ∧
        (subjs.Nodup → (pairs.map Prod.fst).Nodup)) := by
  constructor
  · intro g c p st pr ot subjs objs es k k1 hkey h
    rw [genRelation, if_pos hkey] at h
    obtain ⟨pairs, hp1, hp2, hp3⟩ := genUniqueObject_pairs h
    refine ⟨?_, pairs, hp1, hp2, hp3, fun hn => hn.sublist hp2⟩
    calc es.length = (pairs.map Prod.snd).length := by simp [hp1]
      _ ≤ objs.length := hp2.length_le
  · intro g c p pr subjs objs es k k1 h
    obtain ⟨pairs, hp1, hp2, hp3⟩ := genUniqueSubject_pairs h
    refine ⟨?_, pairs, hp1, hp2, hp3, fun hn => hn.sublist hp2⟩
    calc es.length = (pairs.map Prod.fst).length := by simp [hp1]
      _ ≤ subjs.length := hp2.length_le

/-- Witness for C3: a configured UNIQUE_OBJECT relation with one subject and
two objects at p = 1, and a UNIQUE_SUBJECT run with one subject, both on the
all-zeros stream. -/
theorem c3_unique_cardinality_witness :
    (["(a,companyLocation,x)", "(a,companyLocation,y)"].length ≤ 2 ∧
      ∃ pairs : List (String × String),
        ["(a,companyLocation,x)", "(a,companyLocation,y)"]
          = pairs.map (fun q => tripleStr q.1 "companyLocation" q.2) ∧
        (pairs.map Prod.snd).Sublist ["x", "y"] ∧ (∀ q ∈ pairs, q.1 ∈ ["a"]) ∧
        (["x", "y"].Nodup → (pairs.map Prod.snd).Nodup)) ∧
    (["(s1,r,x)"].length ≤ 1 ∧
      ∃ pairs : List (String × String),
        ["(s1,r,x)"] = pairs.map (fun q => tripleStr q.1 "r" q.2) ∧
        (pairs.map Prod.fst).Sublist ["s1"] ∧ (∀ q ∈ pairs, q.2 ∈ ["x"]) ∧
        (["s1"].Nodup → (pairs.map Prod.fst).Nodup)) := by
  constructor
  · have h := c3_unique_cardinality.1 (fun _ => 0) (fun _ => 0) 1
      "City" "companyLocation" "Company" ["a"] ["x", "y"]
      ["(a,companyLocation,x)", "(a,companyLocation,y)"] 0 4
      (by decide) (by decide)
    simpa using h
  · have h := c3_unique_cardinality.2 (fun _ => 0) (fun _ => 0) 1 "r"
      ["s1"] ["x"] ["(s1,r,x)"] 0 2 (by decide)
    simpa using h

theorem genMany_nil_subjs (g : Nat → ℚ) (p : ℚ) (pr : String)
    (objs : List String) (k : Nat) : genMany g p pr objs [] k = ([], k) := rfl

theorem genMany_nil_objs (g : Nat → ℚ) (p : ℚ) (pr : String) :
    ∀ (subjs : List String) (k : Nat), genMany g p pr [] subjs k = ([], k) := by
  intro subjs
  induction subjs with
  | nil => intro k; rfl
  | cons s rest ih =>
    intro k
    simp [genMany, genPairsInner, ih k]

theorem genUniqueObject_total {g : Nat → ℚ} {c : Nat → Nat} {p : ℚ}
    {pr : String} {subjs : List String} (hs : subjs ≠ []) :
    ∀ (objs : List String) (k : Nat),
      ∃ r, genUniqueObject g c p pr subjs objs k = some r := by
  intro objs
  induction objs with
  | nil => intro k; exact ⟨([], k), rfl⟩
  | cons o rest ih =>
    intro k
    simp only [genUniqueObject]
    by_cases hd : g k < p
    · rw [if_pos hd]
      obtain ⟨s, hs'⟩ := rchoice_isSome (c := c) (k := k + 1) hs
      rw [hs']
      obtain ⟨⟨es, kk⟩, hr⟩ := ih (k + 2)
      rw [hr]
      exact ⟨_, rfl⟩
    · rw [if_neg hd]
      exact ih (k + 1)

theorem genUniqueSubject_total {g : Nat → ℚ} {c : Nat → Nat} {p : ℚ}
    {pr : String} {objs : List String} (ho : objs ≠ []) :
    ∀ (subjs : List String) (k : Nat),
      ∃ r, genUniqueSubject g c p pr objs subjs k = some r := by
  intro subjs
  induction subjs with
  | nil => intro k; exact ⟨([], k), rfl⟩
  | cons s rest ih =>
    intro k
    simp only [genUniqueSubject]
    by_cases hd : g k < p
    · rw [if_pos hd]
      obtain ⟨o, ho'⟩ := rchoice_isSome (c := c) (k := k + 1) ho
      rw [ho']
      obtain ⟨⟨es, kk⟩, hr⟩ := ih (k + 2)
      rw [hr]
      exact ⟨_, rfl⟩
    · rw [if_neg hd]
      exact ih (k + 1)

/-- C9: the MANY_TO_MANY branch is total (empty catalog entries give an
empty edge list, no error); the UNIQUE_OBJECT branch succeeds whenever the
subject list is non-empty and the UNIQUE_SUBJECT branch whenever the object
list is non-empty (random.choice is reached only on that side); and with an
empty list on the chosen side and p > 0 the error branch is reachable. -/
theorem c9_choice_safety :
    (∀ (g : Nat → ℚ) (c : Nat → Nat) (p : ℚ) (st pr ot : String)
       (subjs objs : List String) (k : Nat),
      tripleStr st pr ot ∉ uniqueObjectRelations →
      tripleStr st pr ot ∉ uniqueSubjectRelations →
      genRelation g c p (st, pr, ot) subjs objs k
        = some (genMany g p pr objs subjs k) ∧
      (subjs = [] ∨ objs = [] → (genMany g p pr objs subjs k).1 = [])) ∧
    (∀ (g : Nat → ℚ) (c : Nat → Nat) (p : ℚ) (pr : String)
       (subjs objs : List String) (k : Nat), subjs ≠ [] →
      ∃ r, genUniqueObject g c p pr subjs objs k = some r) ∧
    (∀ (g : Nat → ℚ) (c : Nat → Nat) (p : ℚ) (pr : String)
       (subjs objs : List String) (k : Nat), objs ≠ [] →
      ∃ r, genUniqueSubject g c p pr objs subjs k = some r) ∧
    (∀ (c : Nat → Nat) (p : ℚ) (pr o : String) (rest : List String) (k : Nat),
      0 < p →
      genUniqueObject (fun _ => 0) c p pr [] (o :: rest) k = none ∧
      genUniqueSubject (fun _ => 0) c p pr [] (o :: rest) k = none) := by
  refine ⟨?_, fun g c p pr subjs objs k hs =>
      genUniqueObject_total hs objs k,
    fun g c p pr subjs objs k ho => genUniqueSubject_total ho subjs k,
    ?_⟩
  · intro g c p st pr ot subjs objs k hUO hUS
    constructor
    · simp [genRelation, if_neg hUO, if_neg hUS]
    · intro h
      rcases h with h | h
      · rw [h, genMany_nil_subjs]
      · rw [h, genMany_nil_objs]
  · intro c p pr o rest k hp
    constructor
    · simp only [genUniqueObject, if_pos hp, rchoice]
    · simp only [genUniqueSubject, if_pos hp, rchoice]

/-- Witness for C9 at concrete inputs: the unconstrained relation (A,r,B)
with an empty subject list; non-empty lists on the choice side for both
constrained branches; and the reachable error with p = 1. -/
theorem c9_choice_safety_witness :
    (genRelation (fun _ => (0 : ℚ)) (fun _ => 0) (1 / 2) ("A", "r", "B")
        [] ["x"] 0
      = some (genMany (fun _ => 0) (1 / 2) "r" ["x"] [] 0) ∧
      (genMany (fun _ => (0 : ℚ)) (1 / 2) "r" ["x"] [] 0).1 = []) ∧
    (∃ r, genUniqueObject (fun _ => (0 : ℚ)) (fun _ => 0) 1 "r" ["s"] ["x"] 0
      = some r) ∧
    (∃ r, genUniqueSubject (fun _ => (0 : ℚ)) (fun _ => 0) 1 "r" ["x"] ["s"] 0
      = some r) ∧
    (genUniqueObject (fun _ => 0) (fun _ => 0) 1 "r" [] ["x"] 0 = none ∧
     genUniqueSubject (fun _ => 0) (fun _ => 0) 1 "r" [] ["x"] 0 = none) := by
  refine ⟨?_, ?_, ?_, ?_⟩
  · have h := c9_choice_safety.1 (fun _ => 0) (fun _ => 0) (1 / 2)
      "A" "r" "B" [] ["x"] 0 (by decide) (by decide)
    exact ⟨h.1, h.2 (Or.inl rfl)⟩
  · exact c9_choice_safety.2.1 (fun _ => 0) (fun _ => 0) 1 "r" ["s"] ["x"] 0
      (by simp)
  · exact c9_choice_safety.2.2.1 (fun _ => 0) (fun _ => 0) 1 "r" ["s"] ["x"] 0
      (by simp)
  · exact c9_choice_safety.2.2.2 (fun _ => 0) 1 "r" "x" [] 0 (by norm_num)

/-! ## C4: determinism — the output depends only on the draws consumed,
in a fixed order -/

theorem go_step_noSubj {g : Nat → ℚ} {c : Nat → Nat} {p : ℚ}
    {cat : List (String × List String)} {rel : Triple} {rest : List Triple}
    {kg : List (String × List String)} {k : Nat}
    (hs : alookup cat rel.1 = none) :
    generate_kg_go g c p cat (rel :: rest) kg k
      = generate_kg_go g c p cat rest kg k := by
  rw [generate_kg_go, hs]

theorem go_step_noObj {g : Nat → ℚ} {c : Nat → Nat} {p : ℚ}
    {cat : List (String × List String)} {rel : Triple} {rest : List Triple}
    {kg : List (String × List String)} {k : Nat} {subjs : List String}
    (hs : alookup cat rel.1 = some subjs) (ho : alookup cat rel.2.2 = none) :
    generate_kg_go g c p cat (rel :: rest) kg k
      = generate_kg_go g c p cat rest kg k := by
  rw [generate_kg_go, hs, ho]

theorem go_step_err {g : Nat → ℚ} {c : Nat → Nat} {p : ℚ}
    {cat : List (String × List String)} {rel : Triple} {rest : List Triple}
    {kg : List (String × List String)} {k : Nat} {subjs objs : List String}
    (hs : alookup cat rel.1 = some subjs) (ho : alookup cat rel.2.2 = some objs)
    (hr : genRelation g c p rel subjs objs k = none) :
    generate_kg_go g c p cat (rel :: rest) kg k = none := by
  simp only [generate_kg_go, hs, ho, hr]

theorem go_step_ok {g : Nat → ℚ} {c : Nat → Nat} {p : ℚ}
    {cat : List (String × List String)} {rel : Triple} {rest : List Triple}
    {kg : List (String × List String)} {k : Nat} {subjs objs es : List String}
    {k1 : Nat}
    (hs : alookup cat rel.1 = some subjs) (ho : alookup cat rel.2.2 = some objs)
    (hr : genRelation g c p rel subjs objs k = some (es, k1)) :
    generate_kg_go g c p cat (rel :: rest) kg k
      = generate_kg_go g c p cat rest
          (dictInsert kg (tripleStr rel.1 rel.2.1 rel.2.2) es) k1 := by
  simp only [generate_kg_go, hs, ho, hr]

theorem genPairsInner_snd (g : Nat → ℚ) (p : ℚ) (pr s : String) :
    ∀ (objs : List String) (k : Nat),
      (genPairsInner g p pr s objs k).2 = k + objs.length := by
  intro objs
  induction objs with
  | nil => intro k; simp [genPairsInner]
  | cons o rest ih =>
    intro k
    simp only [genPairsInner]
    cases hin : genPairsInner g p pr s rest (k + 1) with
    | mk es kk =>
      have h1 := ih (k + 1)
      rw [hin] at h1
      by_cases hd : g k < p <;> simp [hd, h1] <;> omega

theorem genMany_snd (g : Nat → ℚ) (p : ℚ) (pr : String) (objs : List String) :
    ∀ (subjs : List String) (k : Nat),
      (genMany g p pr objs subjs k).2 = k + subjs.length * objs.length := by
  intro subjs
  induction subjs with
  | nil => intro k; simp [genMany]
  | cons s rest ih =>
    intro k
    cases hin : genPairsInner g p pr s objs k with
    | mk es1 k1 =>
      cases hrec : genMany g p pr objs rest k1 with
      | mk es2 k2 =>
        have h1 := genPairsInner_snd g p pr s objs k
        rw [hin] at h1
        have h2 := ih k1
        rw [hrec] at h2
        simp only [genMany, hin, hrec]
        simp only [List.length_cons]
        show k2 = k + (rest.length + 1) * objs.length
        have h3 : k1 = k + objs.length := h1
        have h4 : k2 = k1 + rest.length * objs.length := h2
        rw [h4, h3]
        ring

theorem genUniqueObject_snd_ge {g : Nat → ℚ} {c : Nat → Nat} {p : ℚ}
    {pr : String} {subjs : List String} :
    ∀ {objs : List String} {k : Nat} {es : List String} {k1 : Nat},
      genUniqueObject g c p pr subjs objs k = some (es, k1) →
      k + objs.length ≤ k1 := by
  intro objs
  induction objs with
  | nil =>
    intro k es k1 h
    simp [genUniqueObject] at h
    obtain ⟨h1, h2⟩ := h
    simp
    omega
  | cons o rest ih =>
    intro k es k1 h
    simp only [genUniqueObject] at h
    by_cases hd : g k < p
    · rw [if_pos hd] at h
      cases hc : rchoice c (k + 1) subjs with
      | none => rw [hc] at h; simp at h
      | some s =>
        rw [hc] at h
        cases hr : genUniqueObject g c p pr subjs rest (k + 2) with
        | none => rw [hr] at h; simp at h
        | some res =>
          obtain ⟨es', kk⟩ := res
          rw [hr] at h
          simp at h
          have h1 := ih hr
          simp only [List.length_cons]
          omega
    · rw [if_neg hd] at h
      have h1 := ih h
      simp only [List.length_cons]
      omega

theorem genUniqueSubject_snd_ge {g : Nat → ℚ} {c : Nat → Nat} {p : ℚ}
    {pr : String} {objs : List String} :
    ∀ {subjs : List String} {k : Nat} {es : List String} {k1 : Nat},
      genUniqueSubject g c p pr objs subjs k = some (es, k1) →
      k + subjs.length ≤ k1 := by
  intro subjs
  induction subjs with
  | nil =>
    intro k es k1 h
    simp [genUniqueSubject] at h
    obtain ⟨h1, h2⟩ := h
    simp
    omega
  | cons s rest ih =>
    intro k es k1 h
    simp only [genUniqueSubject] at h
    by_cases hd : g k < p
    · rw [if_pos hd] at h
      cases hc : rchoice c (k + 1) objs with
      | none => rw [hc] at h; simp at h
      | some o =>
        rw [hc] at h
        cases hr : genUniqueSubject g c p pr objs rest (k + 2) with
        | none => rw [hr] at h; simp at h
        | some res =>
          obtain ⟨es', kk⟩ := res
          rw [hr] at h
          simp at h
          have h1 := ih hr
          simp only [List.length_cons]
          omega
    · rw [if_neg hd] at h
      have h1 := ih h
      simp only [List.length_cons]
      omega

theorem genRelation_snd_ge {g : Nat → ℚ} {c : Nat → Nat} {p : ℚ} {rel : Triple}
    {subjs objs es : List String} {k k1 : Nat}
    (h : genRelation g c p rel subjs objs k = some (es, k1)) : k ≤ k1 := by
  rw [genRelation] at h
  by_cases h1 : tripleStr rel.1 rel.2.1 rel.2.2 ∈ uniqueObjectRelations
  · rw [if_pos h1] at h
    have := genUniqueObject_snd_ge h
    omega
  · rw [if_neg h1] at h
    by_cases h2 : tripleStr rel.1 rel.2.1 rel.2.2 ∈ uniqueSubjectRelations
    · rw [if_pos h2] at h
      have := genUniqueSubject_snd_ge h
      omega
    · rw [if_neg h2] at h
      simp only [Option.some.injEq] at h
      have hs := genMany_snd g p rel.2.1 objs subjs k
      rw [h] at hs
      simp at hs
      omega

theorem generate_kg_go_snd_ge {g : Nat → ℚ} {c : Nat → Nat} {p : ℚ}
    {cat : List (String × List String)} :
    ∀ {rels : List Triple} {kg kg' : List (String × List String)} {k k' : Nat},
      generate_kg_go g c p cat rels kg k = some (kg', k') → k ≤ k' := by
  intro rels
  induction rels with
  | nil =>
    intro kg kg' k k' h
    simp [generate_kg_go] at h
    omega
  | cons rel rest ih =>
    intro kg kg' k k' h
    cases hs : alookup cat rel.1 with
    | none =>
      rw [go_step_noSubj hs] at h
      exact ih h
    | some subjs =>
      cases ho : alookup cat rel.2.2 with
      | none =>
        rw [go_step_noObj hs ho] at h
        exact ih h
      | some objs =>
        cases hr : genRelation g c p rel subjs objs k with
        | none => rw [go_step_err hs ho hr] at h; simp at h
        | some res =>
          obtain ⟨es, k1⟩ := res
          rw [go_step_ok hs ho hr] at h
          have h1 := genRelation_snd_ge hr
          have h2 := ih h
          omega

theorem rchoice_congr {c1 c2 : Nat → Nat} {k : Nat} (l : List String)
    (h : c1 k = c2 k) : rchoice c1 k l = rchoice c2 k l := by
  cases l with
  | nil => rfl
  | cons x xs => simp [rchoice, h]

theorem genPairsInner_congr {g1 g2 : Nat → ℚ} {p : ℚ} (pr s : String) :
    ∀ (objs : List String) (k : Nat),
      (∀ n, k ≤ n → n < k + objs.length → g1 n = g2 n) →
      genPairsInner g1 p pr s objs k = genPairsInner g2 p pr s objs k := by
  intro objs
  induction objs with
  | nil => intro k h; rfl
  | cons o rest ih =>
    intro k h
    have hk : g1 k = g2 k := h k le_rfl (by simp)
    have hrec := ih (k + 1)
      (fun n h1 h2 => h n (by omega) (by simp only [List.length_cons]; omega))
    simp only [genPairsInner, hrec, hk]

theorem genMany_congr {g1 g2 : Nat → ℚ} {p : ℚ} (pr : String)
    (objs : List String) :
    ∀ (subjs : List String) (k : Nat),
      (∀ n, k ≤ n → n < (genMany g1 p pr objs subjs k).2 → g1 n = g2 n) →
      genMany g1 p pr objs subjs k = genMany g2 p pr objs subjs k := by
  intro subjs
  induction subjs with
  | nil => intro k h; rfl
  | cons s rest ih =>
    intro k h
    have hsnd := genMany_snd g1 p pr objs (s :: rest) k
    cases hin : genPairsInner g1 p pr s objs k with
    | mk es1 k1 =>
      have hk1 : k1 = k + objs.length := by
        have h0 := genPairsInner_snd g1 p pr s objs k
        rw [hin] at h0
        exact h0
      have hrecsnd : (genMany g1 p pr objs rest k1).2
          = k1 + rest.length * objs.length := genMany_snd g1 p pr objs rest k1
      have hfin : (genMany g1 p pr objs (s :: rest) k).2
          = k1 + rest.length * objs.length := by
        rw [hsnd, hk1]
        simp only [List.length_cons]
        ring
      have hinner : genPairsInner g2 p pr s objs k = (es1, k1) := by
        rw [← hin]
        refine (genPairsInner_congr pr s objs k ?_).symm
        intro n h1 h2
        refine h n h1 ?_
        rw [hfin, hk1]
        omega
      have hrec : genMany g2 p pr objs rest k1
          = genMany g1 p pr objs rest k1 := by
        refine (ih k1 ?_).symm
        intro n h1 h2
        refine h n ?_ ?_
        · omega
        · rw [hfin]
          rw [hrecsnd] at h2
          exact h2
      simp only [genMany, hin, hinner, hrec]

theorem genUniqueObject_congr {g1 g2 : Nat → ℚ} {c1 c2 : Nat → Nat} {p : ℚ}
    {pr : String} {subjs : List String} :
    ∀ {objs : List String} {k : Nat} {es : List String} {k1 : Nat},
      genUniqueObject g1 c1 p pr subjs objs k = some (es, k1) →
      (∀ n, k ≤ n → n < k1 → g1 n = g2 n) →
      (∀ n, k ≤ n → n < k1 → c1 n = c2 n) →
      genUniqueObject g2 c2 p pr subjs objs k = some (es, k1) := by
  intro objs
  induction objs with
  | nil => intro k es k1 h hg hc; simpa using h
  | cons o rest ih =>
    intro k es k1 h hg hc
    simp only [genUniqueObject] at h ⊢
    by_cases hd : g1 k < p
    · rw [if_pos hd] at h
      cases hch : rchoice c1 (k + 1) subjs with
      | none => rw [hch] at h; simp at h
      | some s =>
        rw [hch] at h
        cases hr : genUniqueObject g1 c1 p pr subjs rest (k + 2) with
        | none => rw [hr] at h; simp at h
        | some res =>
          obtain ⟨es', kk⟩ := res
          rw [hr] at h
          simp at h
          obtain ⟨hes, hkk⟩ := h
          have hge := genUniqueObject_snd_ge hr
          have hklt : k < k1 := by omega
          have hk1lt : k + 1 < k1 := by omega
          have hgk : g2 k < p := by rw [← hg k le_rfl hklt]; exact hd
          rw [if_pos hgk]
          have hch2 : rchoice c2 (k + 1) subjs = some s := by
            rw [← rchoice_congr subjs (hc (k + 1) (by omega) hk1lt)]
            exact hch
          rw [hch2]
          have hr2 := ih hr (fun n n1 n2 => hg n (by omega) (by omega))
            (fun n n1 n2 => hc n (by omega) (by omega))
          rw [hr2]
          simp [hes, hkk]
    · rw [if_neg hd] at h
      have hge := genUniqueObject_snd_ge h
      have hklt : k < k1 := by simp only [List.length_cons] at hge; omega
      have hgk : ¬ g2 k < p := by rw [← hg k le_rfl hklt]; exact hd
      rw [if_neg hgk]
      exact ih h (fun n n1 n2 => hg n (by omega) n2)
        (fun n n1 n2 => hc n (by omega) n2)

theorem genUniqueSubject_congr {g1 g2 : Nat → ℚ} {c1 c2 : Nat → Nat} {p : ℚ}
    {pr : String} {objs : List String} :
    ∀ {subjs : List String} {k : Nat} {es : List String} {k1 : Nat},
      genUniqueSubject g1 c1 p pr objs subjs k = some (es, k1) →
      (∀ n, k ≤ n → n < k1 → g1 n = g2 n) →
      (∀ n, k ≤ n → n < k1 → c1 n = c2 n) →
      genUniqueSubject g2 c2 p pr objs subjs k = some (es, k1) := by
  intro subjs
  induction subjs with
  | nil => intro k es k1 h hg hc; simpa using h
  | cons s rest ih =>
    intro k es k1 h hg hc
    simp only [genUniqueSubject] at h ⊢
    by_cases hd : g1 k < p
    · rw [if_pos hd] at h
      cases hch : rchoice c1 (k + 1) objs with
      | none => rw [hch] at h; simp at h
      | some o =>
        rw [hch] at h
        cases hr : genUniqueSubject g1 c1 p pr objs rest (k + 2) with
        | none => rw [hr] at h; simp at h
        | some res =>
          obtain ⟨es', kk⟩ := res
          rw [hr] at h
          simp at h
          obtain ⟨hes, hkk⟩ := h
          have hge := genUniqueSubject_snd_ge hr
          have hklt : k < k1 := by omega
          have hk1lt : k + 1 < k1 := by omega
          have hgk : g2 k < p := by rw [← hg k le_rfl hklt]; exact hd
          rw [if_pos hgk]
          have hch2 : rchoice c2 (k + 1) objs = some o := by
            rw [← rchoice_congr objs (hc (k + 1) (by omega) hk1lt)]
            exact hch
          rw [hch2]
          have hr2 := ih hr (fun n n1 n2 => hg n (by omega) (by omega))
            (fun n n1 n2 => hc n (by omega) (by omega))
          rw [hr2]
          simp [hes, hkk]
    · rw [if_neg hd] at h
      have hge := genUniqueSubject_snd_ge h
      have hklt : k < k1 := by simp only [List.length_cons] at hge; omega
      have hgk : ¬ g2 k < p := by rw [← hg k le_rfl hklt]; exact hd
      rw [if_neg hgk]
      exact ih h (fun n n1 n2 => hg n (by omega) n2)
        (fun n n1 n2 => hc n (by omega) n2)

theorem genRelation_congr {g1 g2 : Nat → ℚ} {c1 c2 : Nat → Nat} {p : ℚ}
    {rel : Triple} {subjs objs es : List String} {k k1 : Nat}
    (h : genRelation g1 c1 p rel subjs objs k = some (es, k1))
    (hg : ∀ n, k ≤ n → n < k1 → g1 n = g2 n)
    (hc : ∀ n, k ≤ n → n < k1 → c1 n = c2 n) :
    genRelation g2 c2 p rel subjs objs k = some (es, k1) := by
  rw [genRelation] at h ⊢
  by_cases h1 : tripleStr rel.1 rel.2.1 rel.2.2 ∈ uniqueObjectRelations
  · rw [if_pos h1] at h ⊢
    exact genUniqueObject_congr h hg hc
  · rw [if_neg h1] at h ⊢
    by_cases h2 : tripleStr rel.1 rel.2.1 rel.2.2 ∈ uniqueSubjectRelations
    · rw [if_pos h2] at h ⊢
      exact genUniqueSubject_congr h hg hc
    · rw [if_neg h2] at h ⊢
      simp only [Option.some.injEq] at h ⊢
      rw [← h]
      refine (genMany_congr rel.2.1 objs subjs k ?_).symm
      intro n n1 n2
      refine hg n n1 ?_
      rw [h] at n2
      exact n2

/-- C4: generation is a function of the random draw stream alone, consumed
sequentially — if a second pair of stream oracles agrees with the first on
every index the run consumes (the interval from the starting counter to the
final counter), the run produces the identical graph dict and final counter;
in particular, fully identical streams (identical seed) give identical
generate_kg outputs on identical schema, catalog and probability. -/
theorem c4_deterministic_given_stream :
    (∀ (g1 g2 : Nat → ℚ) (c1 c2 : Nat → Nat) (p : ℚ)
       (cat : List (String × List String)) (rels : List Triple)
       (kg kg' : List (String × List String)) (k k' : Nat),
      generate_kg_go g1 c1 p cat rels kg k = some (kg', k') →
      (∀ n, k ≤ n → n < k' → g1 n = g2 n) →
      (∀ n, k ≤ n → n < k' → c1 n = c2 n) →
      generate_kg_go g2 c2 p cat rels kg k = some (kg', k')) ∧
    (∀ (g1 g2 : Nat → ℚ) (c1 c2 : Nat → Nat) (p : ℚ)
       (cat : List (String × List String)) (rels : List Triple),
      (∀ n, g1 n = g2 n) → (∀ n, c1 n = c2 n) →
      generate_kg g1 c1 rels cat p = generate_kg g2 c2 rels cat p) := by
  constructor
  · intro g1 g2 c1 c2 p cat rels
    induction rels with
    | nil =>
      intro kg kg' k k' h hg hc
      simpa using h
    | cons rel rest ih =>
      intro kg kg' k k' h hg hc
      cases hs : alookup cat rel.1 with
      | none =>
        rw [go_step_noSubj hs] at h ⊢
        exact ih kg kg' k k' h hg hc
      | some subjs =>
        cases ho : alookup cat rel.2.2 with
        | none =>
          rw [go_step_noObj hs ho] at h ⊢
          exact ih kg kg' k k' h hg hc
        | some objs =>
          cases hr : genRelation g1 c1 p rel subjs objs k with
          | none => rw [go_step_err hs ho hr] at h; simp at h
          | some res =>
            obtain ⟨es, k1⟩ := res
            rw [go_step_ok hs ho hr] at h
            have hk1 : k ≤ k1 := genRelation_snd_ge hr
            have hk' : k1 ≤ k' := generate_kg_go_snd_ge h
            have hr2 : genRelation g2 c2 p rel subjs objs k = some (es, k1) :=
              genRelation_congr hr (fun n n1 n2 => hg n n1 (by omega))
                (fun n n1 n2 => hc n n1 (by omega))
            rw [go_step_ok hs ho hr2]
            exact ih _ kg' k1 k' h (fun n n1 n2 => hg n (by omega) n2)
              (fun n n1 n2 => hc n (by omega) n2)
  · intro g1 g2 c1 c2 p cat rels hg hc
    have hg' : g1 = g2 := funext hg
    have hc' : c1 = c2 := funext hc
    rw [hg', hc']

/-- Witness for C4: a one-relation schema at p = 1 on the all-zeros streams;
a second pair of streams agreeing below the final counter reproduces the
run, and fully equal streams give equal generate_kg outputs. -/
theorem c4_deterministic_given_stream_witness :
    generate_kg_go (fun _ => (0 : ℚ)) (fun _ => 0) 1 [("A", ["a"]), ("B", ["b"])]
        [("A", "r", "B")] [] 0
      = some ([(tripleStr "A" "r" "B", [tripleStr "a" "r" "b"])], 1) ∧
    generate_kg_go (fun n => if n = 0 then (0 : ℚ) else 1) (fun _ => 0) 1
        [("A", ["a"]), ("B", ["b"])] [("A", "r", "B")] [] 0
      = some ([(tripleStr "A" "r" "B", [tripleStr "a" "r" "b"])], 1) ∧
    generate_kg (fun _ => (0 : ℚ)) (fun _ => 0) [("A", "r", "B")]
        [("A", ["a"]), ("B", ["b"])] 1
      = generate_kg (fun _ => (0 : ℚ)) (fun _ => 0) [("A", "r", "B")]
        [("A", ["a"]), ("B", ["b"])] 1 := by
  have h1 : generate_kg_go (fun _ => (0 : ℚ)) (fun _ => 0) 1
      [("A", ["a"]), ("B", ["b"])] [("A", "r", "B")] [] 0
      = some ([(tripleStr "A" "r" "B", [tripleStr "a" "r" "b"])], 1) := by
    decide
  refine ⟨h1, ?_, ?_⟩
  · refine c4_deterministic_given_stream.1 (fun _ => (0 : ℚ))
      (fun n => if n = 0 then (0 : ℚ) else 1) (fun _ => 0) (fun _ => 0) 1
      [("A", ["a"]), ("B", ["b"])] [("A", "r", "B")] [] _ 0 1 h1 ?_ ?_
    · intro n n1 n2
      have hn : n = 0 := by omega
      simp [hn]
    · intro n n1 n2
      rfl
  · exact c4_deterministic_given_stream.2 (fun _ => (0 : ℚ)) (fun _ => (0 : ℚ))
      (fun _ => 0) (fun _ => 0) 1 [("A", ["a"]), ("B", ["b"])] [("A", "r", "B")]
      (fun n => rfl) (fun n => rfl)

/-! ## C8: parse_schema on a failing read -/

/-- Counterexample to C8 as stated: a read that fails after one line was
delivered (failAfter = some 1, a failing read) returns the relation parsed
from that line — a partial list — not the empty schema. -/
theorem c8_counterexample :
    parse_schema ["(A,b,C)", "(D,e,F)"] (some 1) = [("A", "b", "C")] ∧
    parse_schema ["(A,b,C)", "(D,e,F)"] (some 1) ≠ [] := by
  constructor
  · decide
  · decide

/-- C8 (amended): a read failure raised before any line is delivered — the
missing-file case, where the open itself raises — yields the empty schema,
while a failure after i delivered lines yields exactly the relations parsed
from those first i lines (a partial list, empty only when no parsed line was
delivered before the failure). -/
theorem c8_parse_schema_failure (lines : List String) (i : Nat) :
    parse_schema lines (some 0) = [] ∧
    parse_schema lines (some i) = parse_schema (lines.take i) none := by
  constructor
  · simp [parse_schema]
  · rfl

/-! ## C7: the key set of the generated graph -/

theorem alookup_eq_none_iff {α β : Type} [DecidableEq α] (d : List (α × β))
    (k : α) : alookup d k = none ↔ k ∉ d.map Prod.fst := by
  induction d with
  | nil => simp [alookup]
  | cons kv t ih =>
    by_cases hk : k = kv.1
    · simp [alookup, hk]
    · simp only [alookup, if_neg hk, List.map_cons, List.mem_cons, ih]
      simp [hk]

theorem alookup_map_overwrite {β : Type} (d : List (String × β))
    (key h : String) (v : β) (hne : h ≠ key) :
    alookup (d.map (fun kv => if kv.1 = key then (key, v) else kv)) h
      = alookup d h := by
  induction d with
  | nil => rfl
  | cons kv t ih =>
    by_cases hk : kv.1 = key
    · rw [List.map_cons, if_pos hk]
      have h2 : h ≠ kv.1 := fun he => hne (he.trans hk)
      simp only [alookup, if_neg hne, if_neg h2]
      exact ih
    · rw [List.map_cons, if_neg hk]
      simp only [alookup]
      by_cases h3 : h = kv.1
      · simp [h3]
      · simp [h3, ih]

theorem alookup_map_overwrite_self {β : Type} (d : List (String × β))
    (key : String) (v : β) (hw : (alookup d key).isSome = true) :
    alookup (d.map (fun kv => if kv.1 = key then (key, v) else kv)) key
      = some v := by
  induction d with
  | nil => simp [alookup] at hw
  | cons kv t ih =>
    by_cases hk : kv.1 = key
    · rw [List.map_cons, if_pos hk]
      simp [alookup]
    · rw [List.map_cons, if_neg hk]
      have h2 : key ≠ kv.1 := fun he => hk he.symm
      simp only [alookup, if_neg h2] at hw ⊢
      exact ih hw

theorem alookup_dictInsert_self {β : Type} (d : List (String × β))
    (key : String) (v : β) : alookup (dictInsert d key v) key = some v := by
  unfold dictInsert
  cases hl : alookup d key with
  | none =>
    rw [alookup_append_right _ hl]
    simp [alookup]
  | some w =>
    exact alookup_map_overwrite_self d key v (by rw [hl]; rfl)

theorem alookup_dictInsert_other {β : Type} (d : List (String × β))
    (key h : String) (v : β) (hne : h ≠ key) :
    alookup (dictInsert d key v) h = alookup d h := by
  unfold dictInsert
  cases hl : alookup d key with
  | none =>
    cases hd : alookup d h with
    | some w => rw [alookup_append_left _ hd]
    | none =>
      rw [alookup_append_right _ hd]
      simp [alookup, hne]
  | some w => exact alookup_map_overwrite d key h v hne

theorem generate_kg_go_keys {g : Nat → ℚ} {c : Nat → Nat} {p : ℚ}
    {cat : List (String × List String)} :
    ∀ {rels : List Triple} {kg kg' : List (String × List String)} {k k' : Nat},
      generate_kg_go g c p cat rels kg k = some (kg', k') →
      ∀ key, (alookup kg' key).isSome = true ↔
        ((alookup kg key).isSome = true ∨
          ∃ r ∈ rels, key = tripleStr r.1 r.2.1 r.2.2 ∧
            (alookup cat r.1).isSome = true ∧
            (alookup cat r.2.2).isSome = true) := by
  intro rels
  induction rels with
  | nil =>
    intro kg kg' k k' h key
    simp [generate_kg_go] at h
    simp [h.1]
  | cons rel rest ih =>
    intro kg kg' k k' h key
    cases hs : alookup cat rel.1 with
    | none =>
      rw [go_step_noSubj hs] at h
      rw [ih h key]
      constructor
      · intro hor
        rcases hor with hor | ⟨r, hr1, hr2⟩
        · exact Or.inl hor
        · exact Or.inr ⟨r, List.mem_cons_of_mem _ hr1, hr2⟩
      · intro hor
        rcases hor with hor | ⟨r, hr1, hr2, hr3, hr4⟩
        · exact Or.inl hor
        · rcases List.mem_cons.mp hr1 with hr1 | hr1
          · rw [hr1] at hr3
            rw [hs] at hr3
            simp at hr3
          · exact Or.inr ⟨r, hr1, hr2, hr3, hr4⟩
    | some subjs =>
      cases ho : alookup cat rel.2.2 with
      | none =>
        rw [go_step_noObj hs ho] at h
        rw [ih h key]
        constructor
        · intro hor
          rcases hor with hor | ⟨r, hr1, hr2⟩
          · exact Or.inl hor
          · exact Or.inr ⟨r, List.mem_cons_of_mem _ hr1, hr2⟩
        · intro hor
          rcases hor with hor | ⟨r, hr1, hr2, hr3, hr4⟩
          · exact Or.inl hor
          · rcases List.mem_cons.mp hr1 with hr1 | hr1
            · rw [hr1] at hr4
              rw [ho] at hr4
              simp at hr4
            · exact Or.inr ⟨r, hr1, hr2, hr3, hr4⟩
      | some objs =>
        cases hr : genRelation g c p rel subjs objs k with
        | none => rw [go_step_err hs ho hr] at h; simp at h
        | some res =>
          obtain ⟨es, k1⟩ := res
          rw [go_step_ok hs ho hr] at h
          rw [ih h key]
          by_cases hkey : key = tripleStr rel.1 rel.2.1 rel.2.2
          · constructor
            · intro _
              exact Or.inr ⟨rel, List.mem_cons_self _ _, hkey,
                by rw [hs]; rfl, by rw [ho]; rfl⟩
            · intro _
              left
              rw [hkey, alookup_dictInsert_self]
              rfl
          · rw [alookup_dictInsert_other _ _ _ _ hkey]
            constructor
            · intro hor
              rcases hor with hor | ⟨r, hr1, hr2⟩
              · exact Or.inl hor
              · exact Or.inr ⟨r, List.mem_cons_of_mem _ hr1, hr2⟩
            · intro hor
              rcases hor with hor | ⟨r, hr1, hr2, hr3, hr4⟩
              · exact Or.inl hor
              · rcases List.mem_cons.mp hr1 with hr1 | hr1
                · rw [hr1] at hr2
                  exact absurd hr2 hkey
                · exact Or.inr ⟨r, hr1, hr2, hr3, hr4⟩

/-- C7: when generate_kg succeeds, the key set of the produced graph dict is
exactly the set of formatted keys of schema relations whose subject and
object types are both present in the catalog — a skipped relation leaves no
key, a passing relation contributes its key even with an empty edge list. -/
theorem c7_key_set (g : Nat → ℚ) (c : Nat → Nat) (rels : List Triple)
    (cat : List (String × List String)) (p : ℚ)
    (kg : List (String × List String))
    (h : generate_kg g c rels cat p = some kg) :
    ∀ key, (alookup kg key).isSome = true ↔
      ∃ r ∈ rels, key = tripleStr r.1 r.2.1 r.2.2 ∧
        (alookup cat r.1).isSome = true ∧
        (alookup cat r.2.2).isSome = true := by
  intro key
  rw [generate_kg] at h
  split at h
  · simp at h
  · cases hgo : generate_kg_go g c p cat rels [] 0 with
    | none => rw [hgo] at h; simp at h
    | some res =>
      obtain ⟨kg0, k'⟩ := res
      rw [hgo] at h
      simp at h
      rw [← h]
      rw [generate_kg_go_keys hgo key]
      simp [alookup]

/-- Witness for C7: schema [(A,r,B), (C,q,D)] with only A and B catalogued:
the passing relation's key is present (with its edge list), the skipped
relation's key is absent. -/
theorem c7_key_set_witness :
    ((alookup [(tripleStr "A" "r" "B", [tripleStr "a" "r" "b"])]
        (tripleStr "A" "r" "B")).isSome = true ↔
      ∃ r ∈ [(("A", "r", "B") : Triple), ("C", "q", "D")],
        tripleStr "A" "r" "B" = tripleStr r.1 r.2.1 r.2.2 ∧
        (alookup [("A", ["a"]), ("B", ["b"])] r.1).isSome = true ∧
        (alookup [("A", ["a"]), ("B", ["b"])] r.2.2).isSome = true) ∧
    ((alookup [(tripleStr "A" "r" "B", [tripleStr "a" "r" "b"])]
        (tripleStr "C" "q" "D")).isSome = true ↔
      ∃ r ∈ [(("A", "r", "B") : Triple), ("C", "q", "D")],
        tripleStr "C" "q" "D" = tripleStr r.1 r.2.1 r.2.2 ∧
        (alookup [("A", ["a"]), ("B", ["b"])] r.1).isSome = true ∧
        (alookup [("A", ["a"]), ("B", ["b"])] r.2.2).isSome = true) := by
  have hrun : generate_kg (fun _ => (0 : ℚ)) (fun _ => 0)
      [("A", "r", "B"), ("C", "q", "D")] [("A", ["a"]), ("B", ["b"])] 1
      = some [(tripleStr "A" "r" "B", [tripleStr "a" "r" "b"])] := by
    decide
  exact ⟨c7_key_set _ _ _ _ _ _ hrun (tripleStr "A" "r" "B"),
    c7_key_set _ _ _ _ _ _ hrun (tripleStr "C" "q" "D")⟩

/-! ## C10: duplicated relation keys in the schema -/

/-- First-defined-wins choice of two optional results (Python dict lookup
over an append of search ranges). -/
def oor {α : Type} : Option α → Option α → Option α
  | some v, _ => some v
  | none, b => b

theorem oor_assoc {α : Type} (a b c : Option α) :
    oor (oor a b) c = oor a (oor b c) := by
  cases a <;> rfl

theorem alookup_append {α β : Type} [DecidableEq α] (a b : List (α × β))
    (k : α) : alookup (a ++ b) k = oor (alookup a k) (alookup b k) := by
  cases h : alookup a k with
  | some v => rw [alookup_append_left _ h]; rfl
  | none => rw [alookup_append_right _ h]; rfl

theorem alookup_dictInsert_oor {β : Type} (d : List (String × β))
    (key h : String) (v : β) :
    alookup (dictInsert d key v) h = oor (alookup [(key, v)] h) (alookup d h) := by
  by_cases hk : h = key
  · rw [hk, alookup_dictInsert_self]
    simp [alookup]
    rfl
  · rw [alookup_dictInsert_other _ _ _ _ hk]
    simp [alookup, hk]
    rfl

theorem log_step_noSubj {g : Nat → ℚ} {c : Nat → Nat} {p : ℚ}
    {cat : List (String × List String)} {rel : Triple} {rest : List Triple}
    {k : Nat} (hs : alookup cat rel.1 = none) :
    generate_kg_log g c p cat (rel :: rest) k
      = generate_kg_log g c p cat rest k := by
  rw [generate_kg_log, hs]

theorem log_step_noObj {g : Nat → ℚ} {c : Nat → Nat} {p : ℚ}
    {cat : List (String × List String)} {rel : Triple} {rest : List Triple}
    {k : Nat} {subjs : List String}
    (hs : alookup cat rel.1 = some subjs) (ho : alookup cat rel.2.2 = none) :
    generate_kg_log g c p cat (rel :: rest) k
      = generate_kg_log g c p cat rest k := by
  rw [generate_kg_log, hs, ho]

theorem log_step_ok_some {g : Nat → ℚ} {c : Nat → Nat} {p : ℚ}
    {cat : List (String × List String)} {rel : Triple} {rest : List Triple}
    {k : Nat} {subjs objs es : List String} {k1 k2 : Nat}
    {lg : List (String × List String)}
    (hs : alookup cat rel.1 = some subjs) (ho : alookup cat rel.2.2 = some objs)
    (hr : genRelation g c p rel subjs objs k = some (es, k1))
    (hl : generate_kg_log g c p cat rest k1 = some (lg, k2)) :
    generate_kg_log g c p cat (rel :: rest) k
      = some ((tripleStr rel.1 rel.2.1 rel.2.2, es) :: lg, k2) := by
  simp only [generate_kg_log, hs, ho, hr, hl]

theorem map_fst_overwrite {β : Type} (d : List (String × β)) (key : String)
    (v : β) :
    (d.map (fun kv => if kv.1 = key then (key, v) else kv)).map Prod.fst
      = d.map Prod.fst := by
  induction d with
  | nil => rfl
  | cons kv t ih =>
    by_cases hk : kv.1 = key
    · simp [hk, ih]
    · simp [hk, ih]

theorem dictInsert_keys_nodup {β : Type} {d : List (String × β)} {key : String}
    {v : β} (h : (d.map Prod.fst).Nodup) :
    ((dictInsert d key v).map Prod.fst).Nodup := by
  unfold dictInsert
  cases hl : alookup d key with
  | some w => rw [map_fst_overwrite]; exact h
  | none =>
    rw [List.map_append]
    rw [List.nodup_append]
    refine ⟨h, List.nodup_singleton key, ?_⟩
    intro a ha hb
    simp at hb
    rw [hb] at ha
    exact (alookup_eq_none_iff d key).mp hl ha

theorem generate_kg_go_keys_nodup {g : Nat → ℚ} {c : Nat → Nat} {p : ℚ}
    {cat : List (String × List String)} :
    ∀ {rels : List Triple} {kg kg' : List (String × List String)} {k k' : Nat},
      generate_kg_go g c p cat rels kg k = some (kg', k') →
      (kg.map Prod.fst).Nodup → (kg'.map Prod.fst).Nodup := by
  intro rels
  induction rels with
  | nil =>
    intro kg kg' k k' h hn
    simp [generate_kg_go] at h
    rw [← h.1]
    exact hn
  | cons rel rest ih =>
    intro kg kg' k k' h hn
    cases hs : alookup cat rel.1 with
    | none => rw [go_step_noSubj hs] at h; exact ih h hn
    | some subjs =>
      cases ho : alookup cat rel.2.2 with
      | none => rw [go_step_noObj hs ho] at h; exact ih h hn
      | some objs =>
        cases hr : genRelation g c p rel subjs objs k with
        | none => rw [go_step_err hs ho hr] at h; simp at h
        | some res =>
          obtain ⟨es, k1⟩ := res
          rw [go_step_ok hs ho hr] at h
          exact ih h (dictInsert_keys_nodup hn)

/-- C10: duplicated schema relations — the dict holds one entry per formatted
key (keys stay duplicate-free); its value at each key is the first hit in the
reversed write log, i.e. the edge list generated for the LAST passing
occurrence of that key in schema order; and the log (one entry per passing
occurrence, in schema order) ends at the same draw counter, so the draws of
the overwritten earlier occurrences remain consumed. -/
theorem c10_duplicate_keys (g : Nat → ℚ) (c : Nat → Nat) (p : ℚ)
    (cat : List (String × List String)) (rels : List Triple)
    (kg kg' : List (String × List String)) (k k' : Nat)
    (h : generate_kg_go g c p cat rels kg k = some (kg', k')) :
    ((kg.map Prod.fst).Nodup → (kg'.map Prod.fst).Nodup) ∧
    ∃ log, generate_kg_log g c p cat rels k = some (log, k') ∧
      ∀ key, alookup kg' key = oor (alookup log.reverse key) (alookup kg key) := by
  refine ⟨fun hn => generate_kg_go_keys_nodup h hn, ?_⟩
  induction rels generalizing kg k with
  | nil =>
    simp [generate_kg_go] at h
    refine ⟨[], ?_, ?_⟩
    · simp [generate_kg_log, h.2]
    · intro key
      rw [h.1]
      rfl
  | cons rel rest ih =>
    cases hs : alookup cat rel.1 with
    | none =>
      rw [go_step_noSubj hs] at h
      obtain ⟨lg, h1, h2⟩ := ih kg k h
      exact ⟨lg, by rw [log_step_noSubj hs]; exact h1, h2⟩
    | some subjs =>
      cases ho : alookup cat rel.2.2 with
      | none =>
        rw [go_step_noObj hs ho] at h
        obtain ⟨lg, h1, h2⟩ := ih kg k h
        exact ⟨lg, by rw [log_step_noObj hs ho]; exact h1, h2⟩
      | some objs =>
        cases hr : genRelation g c p rel subjs objs k with
        | none => rw [go_step_err hs ho hr] at h; simp at h
        | some res =>
          obtain ⟨es, k1⟩ := res
          rw [go_step_ok hs ho hr] at h
          obtain ⟨lg, h1, h2⟩ := ih _ k1 h
          refine ⟨(tripleStr rel.1 rel.2.1 rel.2.2, es) :: lg,
            log_step_ok_some hs ho hr h1, ?_⟩
          intro key
          rw [h2 key, alookup_dictInsert_oor]
          rw [List.reverse_cons, alookup_append, oor_assoc]

/-- Witness for C10: the same relation (A,r,B) twice in the schema at p = 1;
the run succeeds with final counter 2 (both occurrences drew), and the
theorem yields the single-entry dict described by the write log. -/
theorem c10_duplicate_keys_witness :
    ((([] : List (String × List String)).map Prod.fst).Nodup →
      (([(tripleStr "A" "r" "B", [tripleStr "a" "r" "b"])].map
        Prod.fst).Nodup)) ∧
    ∃ log, generate_kg_log (fun _ => (0 : ℚ)) (fun _ => 0) 1
        [("A", ["a"]), ("B", ["b"])] [("A", "r", "B"), ("A", "r", "B")] 0
        = some (log, 2) ∧
      ∀ key, alookup [(tripleStr "A" "r" "B", [tripleStr "a" "r" "b"])] key
        = oor (alookup log.reverse key)
            (alookup ([] : List (String × List String)) key) :=
  c10_duplicate_keys (fun _ => 0) (fun _ => 0) 1 [("A", ["a"]), ("B", ["b"])]
    [("A", "r", "B"), ("A", "r", "B")] []
    [(tripleStr "A" "r" "B", [tripleStr "a" "r" "b"])] 0 2 (by decide)

/-! ## C6: finalized indexes are sorted and duplicate-free -/

theorem setAdd_nodup {α : Type} [DecidableEq α] {l : List α} (h : l.Nodup)
    (v : α) : (setAdd l v).Nodup := by
  unfold setAdd
  by_cases hv : v ∈ l
  · rw [if_pos hv]
    exact h
  · rw [if_neg hv]
    rw [List.nodup_append]
    exact ⟨h, List.nodup_singleton v, by
      intro a ha hb
      simp at hb
      rw [hb] at ha
      exact hv ha⟩

/-- All value lists of an index dict are duplicate-free. -/
def IndexNodup {α β : Type} (d : List (α × List β)) : Prop :=
  ∀ kv ∈ d, kv.2.Nodup

theorem indexNodup_dictInitSet {α β : Type} [DecidableEq α]
    {d : List (α × List β)} (h : IndexNodup d) (k : α) :
    IndexNodup (dictInitSet d k) := by
  unfold dictInitSet
  cases alookup d k with
  | some l => exact h
  | none =>
    intro kv hkv
    rcases List.mem_append.mp hkv with hkv | hkv
    · exact h kv hkv
    · simp at hkv
      simp [hkv]

theorem indexNodup_dictAddToSet {α β : Type} [DecidableEq α] [DecidableEq β]
    {d : List (α × List β)} (h : IndexNodup d) (k : α) (v : β) :
    IndexNodup (dictAddToSet d k v) := by
  intro kv hkv
  unfold dictAddToSet at hkv
  rcases List.mem_map.mp hkv with ⟨kv0, hkv0, heq⟩
  by_cases hk : kv0.1 = k
  · rw [if_pos hk] at heq
    rw [← heq]
    exact setAdd_nodup (h kv0 hkv0) v
  · rw [if_neg hk] at heq
    rw [← heq]
    exact h kv0 hkv0

theorem foldl_preserve {σ ε : Type} {P : σ → Prop} {f : σ → ε → σ}
    (hf : ∀ s e, P s → P (f s e)) :
    ∀ (l : List ε) (s : σ), P s → P (l.foldl f s) := by
  intro l
  induction l with
  | nil => intro s hs; exact hs
  | cons e t ih => intro s hs; exact ih (f s e) (hf s e hs)

theorem processEdge_indexNodup (A B : Nat) (S O : String) (st : PState)
    (e : String) (h1 : IndexNodup st.node_type_instances)
    (h2 : IndexNodup st.node_type_instances_labels) :
    IndexNodup (processEdge A B S O st e).node_type_instances ∧
    IndexNodup (processEdge A B S O st e).node_type_instances_labels := by
  unfold processEdge
  split
  · constructor
    · exact indexNodup_dictAddToSet (indexNodup_dictAddToSet h1 _ _) _ _
    · exact indexNodup_dictAddToSet (indexNodup_dictAddToSet h2 _ _) _ _
  · exact ⟨h1, h2⟩

theorem processEntry_indexNodup (st : PState) (entry : String × List String)
    (h1 : IndexNodup st.node_type_instances)
    (h2 : IndexNodup st.node_type_instances_labels) :
    IndexNodup (processEntry st entry).node_type_instances ∧
    IndexNodup (processEntry st entry).node_type_instances_labels := by
  unfold processEntry
  split
  · refine foldl_preserve (P := fun s => IndexNodup s.node_type_instances ∧
      IndexNodup s.node_type_instances_labels)
      (fun s e hp => processEdge_indexNodup _ _ _ _ s e hp.1 hp.2) _ _ ?_
    constructor
    · exact indexNodup_dictInitSet (indexNodup_dictInitSet h1 _) _
    · exact indexNodup_dictInitSet (indexNodup_dictInitSet h2 _) _
  · exact ⟨h1, h2⟩

theorem processGraph_indexNodup (data : List (String × List String)) :
    IndexNodup (processGraph data).node_type_instances ∧
    IndexNodup (processGraph data).node_type_instances_labels := by
  refine foldl_preserve (P := fun s => IndexNodup s.node_type_instances ∧
    IndexNodup s.node_type_instances_labels)
    (fun s e hp => processEntry_indexNodup s e hp.1 hp.2) data initState ?_
  constructor
  · intro kv hkv; simp [initState] at hkv
  · intro kv hkv; simp [initState] at hkv

/-- C6: every entry of both finalized per-type indexes is sorted ascending
(numerically for the identifier index, lexicographically for the label
index) and contains no duplicates, for every input graph. -/
theorem c6_sorted_nodup (data : List (String × List String)) :
    (∀ kv ∈ final_node_instances data,
      kv.2.Sorted (· ≤ ·) ∧ kv.2.Nodup) ∧
    (∀ kv ∈ final_node_instances_labels data,
      kv.2.Sorted (· ≤ ·) ∧ kv.2.Nodup) := by
  obtain ⟨h1, h2⟩ := processGraph_indexNodup data
  constructor
  · intro kv hkv
    rcases List.mem_map.mp hkv with ⟨kv0, hkv0, heq⟩
    rw [← heq]
    exact ⟨List.sorted_insertionSort _ _,
      ((List.perm_insertionSort _ kv0.2).nodup_iff).mpr (h1 kv0 hkv0)⟩
  · intro kv hkv
    rcases List.mem_map.mp hkv with ⟨kv0, hkv0, heq⟩
    rw [← heq]
    exact ⟨List.sorted_insertionSort _ _,
      ((List.perm_insertionSort _ kv0.2).nodup_iff).mpr (h2 kv0 hkv0)⟩

/-- Witness for C6 on the concrete graph from the spec's worked example
shape: one relation key with one edge. -/
theorem c6_sorted_nodup_witness :
    ([md5Int "x"].Sorted (· ≤ ·) ∧ [md5Int "x"].Nodup) ∧
    (["x"].Sorted (· ≤ ·) ∧ ["x"].Nodup) := by
  set_option maxRecDepth 100000 in
  refine ⟨(c6_sorted_nodup [("(A,r,B)", ["(x,r,y)"])]).1
      (md5Int "A", [md5Int "x"]) (by decide),
    (c6_sorted_nodup [("(A,r,B)", ["(x,r,y)"])]).2
      ("A", ["x"]) (by decide)⟩

/-! ## C5: round-trip between the two normalizer indexes -/

theorem mem_setAdd_self {α : Type} [DecidableEq α] (l : List α) (v : α) :
    v ∈ setAdd l v := by
  unfold setAdd
  by_cases hv : v ∈ l
  · rw [if_pos hv]; exact hv
  · rw [if_neg hv]; simp

theorem mem_setAdd_of_mem {α : Type} [DecidableEq α] {l : List α} {x : α}
    (h : x ∈ l) (v : α) : x ∈ setAdd l v := by
  unfold setAdd
  by_cases hv : v ∈ l
  · rw [if_pos hv]; exact h
  · rw [if_neg hv]; exact List.mem_append_left _ h

theorem mem_setAdd_iff {α : Type} [DecidableEq α] {l : List α} {x v : α} :
    x ∈ setAdd l v ↔ x ∈ l ∨ x = v := by
  unfold setAdd
  by_cases hv : v ∈ l
  · rw [if_pos hv]
    constructor
    · exact Or.inl
    · intro h
      rcases h with h | h
      · exact h
      · rw [h]; exact hv
  · rw [if_neg hv]
    simp

theorem alookup_dictInitSet_self_isSome {α β : Type} [DecidableEq α]
    (d : List (α × List β)) (k : α) :
    (alookup (dictInitSet d k) k).isSome = true := by
  unfold dictInitSet
  cases hl : alookup d k with
  | some l => rw [hl]; rfl
  | none =>
    rw [alookup_append_right _ hl]
    simp [alookup]

theorem alookup_dictInitSet_mono {α β : Type} [DecidableEq α]
    {d : List (α × List β)} {h : α} {l : List β} (k : α)
    (hl : alookup d h = some l) : alookup (dictInitSet d k) h = some l := by
  unfold dictInitSet
  cases hk : alookup d k with
  | some w => exact hl
  | none => exact alookup_append_left _ hl

theorem alookup_dictInitSet_isSome_mono {α β : Type} [DecidableEq α]
    {d : List (α × List β)} {h : α} (k : α)
    (hl : (alookup d h).isSome = true) :
    (alookup (dictInitSet d k) h).isSome = true := by
  cases hs : alookup d h with
  | none => rw [hs] at hl; simp at hl
  | some l => rw [alookup_dictInitSet_mono k hs]; rfl

theorem alookup_dictInitSet_src {α β : Type} [DecidableEq α]
    {d : List (α × List β)} {k h : α} {ids : List β} {i : β}
    (hl : alookup (dictInitSet d k) h = some ids) (hi : i ∈ ids) :
    ∃ ids0, alookup d h = some ids0 ∧ i ∈ ids0 := by
  unfold dictInitSet at hl
  cases hk : alookup d k with
  | some w => rw [hk] at hl; exact ⟨ids, hl, hi⟩
  | none =>
    rw [hk] at hl
    cases hs : alookup d h with
    | some l =>
      rw [alookup_append_left _ hs] at hl
      simp at hl
      rw [← hl] at hi
      exact ⟨l, rfl, hi⟩
    | none =>
      rw [alookup_append_right _ hs] at hl
      by_cases hhk : h = k
      · simp [alookup, hhk] at hl
        rw [hl] at hi
        simp at hi
      · simp [alookup, hhk] at hl

theorem alookup_dictAddToSet_self {α β : Type} [DecidableEq α] [DecidableEq β]
    (d : List (α × List β)) (k : α) (v : β) :
    alookup (dictAddToSet d k v) k
      = Option.map (fun l => setAdd l v) (alookup d k) := by
  induction d with
  | nil => rfl
  | cons kv t ih =>
    unfold dictAddToSet at ih ⊢
    by_cases hk : kv.1 = k
    · rw [List.map_cons, if_pos hk]
      simp [alookup, hk.symm]
    · rw [List.map_cons, if_neg hk]
      have h2 : k ≠ kv.1 := fun he => hk he.symm
      simp only [alookup, if_neg h2]
      exact ih

theorem alookup_dictAddToSet_other {α β : Type} [DecidableEq α] [DecidableEq β]
    (d : List (α × List β)) (k h : α) (v : β) (hne : h ≠ k) :
    alookup (dictAddToSet d k v) h = alookup d h := by
  induction d with
  | nil => rfl
  | cons kv t ih =>
    unfold dictAddToSet at ih ⊢
    by_cases hk : kv.1 = k
    · rw [List.map_cons, if_pos hk]
      have h2 : h ≠ kv.1 := fun he => hne (he.trans hk)
      simp only [alookup, if_neg h2]
      exact ih
    · rw [List.map_cons, if_neg hk]
      simp only [alookup]
      by_cases h3 : h = kv.1
      · simp [h3]
      · simp [h3, ih]

theorem alookup_dictAddToSet_isSome {α β : Type} [DecidableEq α]
    [DecidableEq β] {d : List (α × List β)} {h : α} (k : α) (v : β)
    (hl : (alookup d h).isSome = true) :
    (alookup (dictAddToSet d k v) h).isSome = true := by
  by_cases hk : h = k
  · rw [hk] at hl ⊢
    rw [alookup_dictAddToSet_self]
    cases hs : alookup d k with
    | none => rw [hs] at hl; simp at hl
    | some l => rfl
  · rw [alookup_dictAddToSet_other _ _ _ _ hk]
    exact hl

theorem alookup_dictAddToSet_src {α β : Type} [DecidableEq α] [DecidableEq β]
    {d : List (α × List β)} {k h : α} {v i : β} {ids : List β}
    (hl : alookup (dictAddToSet d k v) h = some ids) (hi : i ∈ ids) :
    (∃ ids0, alookup d h = some ids0 ∧ i ∈ ids0) ∨ (h = k ∧ i = v) := by
  by_cases hk : h = k
  · rw [hk] at hl ⊢
    rw [alookup_dictAddToSet_self] at hl
    cases hs : alookup d k with
    | none => rw [hs] at hl; simp at hl
    | some l =>
      rw [hs] at hl
      simp at hl
      rw [← hl] at hi
      rcases mem_setAdd_iff.mp hi with hi | hi
      · exact Or.inl ⟨l, rfl, hi⟩
      · exact Or.inr ⟨rfl, hi⟩
  · rw [alookup_dictAddToSet_other _ _ _ _ hk] at hl
    exact Or.inl ⟨ids, hl, hi⟩

/-- The label-keyed index contains label L under type key T. -/
def HasLab (d : List (String × List String)) (T L : String) : Prop :=
  ∃ labs, alookup d T = some labs ∧ L ∈ labs

theorem hasLab_dictInitSet {d : List (String × List String)} {T L : String}
    (k : String) (h : HasLab d T L) : HasLab (dictInitSet d k) T L := by
  obtain ⟨labs, h1, h2⟩ := h
  exact ⟨labs, alookup_dictInitSet_mono k h1, h2⟩

theorem hasLab_dictAddToSet {d : List (String × List String)} {T L : String}
    (k v : String) (h : HasLab d T L) : HasLab (dictAddToSet d k v) T L := by
  obtain ⟨labs, h1, h2⟩ := h
  by_cases hk : T = k
  · rw [hk] at h1 ⊢
    refine ⟨setAdd labs v, ?_, mem_setAdd_of_mem h2 v⟩
    rw [alookup_dictAddToSet_self, h1]
    rfl
  · exact ⟨labs, by rw [alookup_dictAddToSet_other _ _ _ _ hk]; exact h1, h2⟩

theorem hasLab_dictAddToSet_self {d : List (String × List String)}
    {k : String} (v : String) (h : (alookup d k).isSome = true) :
    HasLab (dictAddToSet d k v) k v := by
  cases hs : alookup d k with
  | none => rw [hs] at h; simp at h
  | some l =>
    refine ⟨setAdd l v, ?_, mem_setAdd_self l v⟩
    rw [alookup_dictAddToSet_self, hs]
    rfl

/-- Everything get_id has stored in the two relevant tables is its MD5
identifier. -/
def StGood (st : PState) : Prop :=
  MapGood st.node_type_map ∧ MapGood st.instance_map

theorem processEdge_not3 {A B : Nat} {S O : String} {st : PState} {e : String}
    (hne : ¬ ∃ a b c, parse_triple_string e = [a, b, c]) :
    processEdge A B S O st e = st := by
  unfold processEdge
  split
  next a b c heq => exact absurd ⟨a, b, c, heq⟩ hne
  next => rfl

theorem edgeOcc1_not3 {S O : String} {e : String}
    (hne : ¬ ∃ a b c, parse_triple_string e = [a, b, c]) :
    edgeOcc1 S O e = [] := by
  unfold edgeOcc1
  split
  next a b c heq => exact absurd ⟨a, b, c, heq⟩ hne
  next => rfl

theorem processEntry_not3 {st : PState} {entry : String × List String}
    (hne : ¬ ∃ a b c, parse_triple_string entry.1 = [a, b, c]) :
    processEntry st entry = st := by
  unfold processEntry
  split
  next a b c heq => exact absurd ⟨a, b, c, heq⟩ hne
  next => rfl

theorem entryOccs_not3 {entry : String × List String}
    (hne : ¬ ∃ a b c, parse_triple_string entry.1 = [a, b, c]) :
    entryOccs entry = [] := by
  unfold entryOccs
  split
  next a b c heq => exact absurd ⟨a, b, c, heq⟩ hne
  next => rfl

theorem processEdge_im_good {A B : Nat} {S O : String} {st : PState}
    {e : String} (h : MapGood st.instance_map) :
    MapGood (processEdge A B S O st e).instance_map := by
  unfold processEdge
  split
  · exact get_id_good (get_id_good h)
  · exact h

theorem processEdge_stGood {A B : Nat} {S O : String} (st : PState)
    (e : String) (h : StGood st) : StGood (processEdge A B S O st e) := by
  unfold processEdge
  split
  · exact ⟨h.1, get_id_good (get_id_good h.2)⟩
  · exact h

theorem processEntry_stGood (st : PState) (entry : String × List String)
    (h : StGood st) : StGood (processEntry st entry) := by
  unfold processEntry
  split
  · refine foldl_preserve (P := StGood)
      (fun s e hp => processEdge_stGood s e hp) _ _ ?_
    exact ⟨get_id_good (get_id_good h.1), h.2⟩
  · exact h

theorem processEdge_ntil_isSome (A B : Nat) (S O : String) (st : PState)
    (e : String) {T : String}
    (h : (alookup st.node_type_instances_labels T).isSome = true) :
    (alookup (processEdge A B S O st e).node_type_instances_labels T).isSome
      = true := by
  unfold processEdge
  split
  · exact alookup_dictAddToSet_isSome _ _ (alookup_dictAddToSet_isSome _ _ h)
  · exact h

theorem processEdge_hasLab (A B : Nat) (S O : String) (st : PState)
    (e : String) {T L : String} (h : HasLab st.node_type_instances_labels T L) :
    HasLab (processEdge A B S O st e).node_type_instances_labels T L := by
  unfold processEdge
  split
  · exact hasLab_dictAddToSet _ _ (hasLab_dictAddToSet _ _ h)
  · exact h

theorem processEdge_hasLab_new (A B : Nat) (S O : String) (st : PState)
    (e : String) {a b c : String} (hp : parse_triple_string e = [a, b, c])
    (hS : (alookup st.node_type_instances_labels S).isSome = true)
    (hO : (alookup st.node_type_instances_labels O).isSome = true) :
    HasLab (processEdge A B S O st e).node_type_instances_labels S a ∧
    HasLab (processEdge A B S O st e).node_type_instances_labels O c := by
  simp only [processEdge, hp]
  constructor
  · exact hasLab_dictAddToSet _ _ (hasLab_dictAddToSet_self a hS)
  · exact hasLab_dictAddToSet_self c (alookup_dictAddToSet_isSome _ _ hO)

theorem edges_hasLab (A B : Nat) (S O : String) :
    ∀ (edges : List String) (st : PState),
      (alookup st.node_type_instances_labels S).isSome = true →
      (alookup st.node_type_instances_labels O).isSome = true →
      ∀ T L, (T, L) ∈ edgeOccs S O edges →
        HasLab ((edges.foldl (processEdge A B S O)
          st).node_type_instances_labels) T L := by
  intro edges
  induction edges with
  | nil =>
    intro st hS hO T L h
    simp [edgeOccs] at h
  | cons e t ih =>
    intro st hS hO T L h
    rw [List.foldl_cons]
    have hS' := processEdge_ntil_isSome A B S O st e (T := S) hS
    have hO' := processEdge_ntil_isSome A B S O st e (T := O) hO
    have hsplit : edgeOccs S O (e :: t) = edgeOcc1 S O e ++ edgeOccs S O t := rfl
    rw [hsplit] at h
    rcases List.mem_append.mp h with h | h
    · by_cases hex : ∃ a b c, parse_triple_string e = [a, b, c]
      · obtain ⟨a, b2, c, hp⟩ := hex
        have hocc : edgeOcc1 S O e = [(S, a), (O, c)] := by
          simp [edgeOcc1, hp]
        rw [hocc] at h
        have hnew := processEdge_hasLab_new A B S O st e hp hS hO
        have hhl : HasLab (processEdge A B S O st e).node_type_instances_labels
            T L := by
          rcases List.mem_cons.mp h with h | h
          · rw [show T = S from congrArg Prod.fst h,
              show L = a from congrArg Prod.snd h]
            exact hnew.1
          · rcases List.mem_cons.mp h with h | h
            · rw [show T = O from congrArg Prod.fst h,
                show L = c from congrArg Prod.snd h]
              exact hnew.2
            · simp at h
        exact foldl_preserve
          (P := fun s => HasLab s.node_type_instances_labels T L)
          (fun s e2 hp2 => processEdge_hasLab _ _ _ _ s e2 hp2) t _ hhl
      · rw [edgeOcc1_not3 hex] at h
        simp at h
    · exact ih (processEdge A B S O st e) hS' hO' T L h

theorem processEntry_hasLab_mono (st : PState) (entry : String × List String)
    {T L : String} (h : HasLab st.node_type_instances_labels T L) :
    HasLab (processEntry st entry).node_type_instances_labels T L := by
  unfold processEntry
  split
  · refine foldl_preserve
      (P := fun s => HasLab s.node_type_instances_labels T L)
      (fun s e2 hp2 => processEdge_hasLab _ _ _ _ s e2 hp2) _ _ ?_
    exact hasLab_dictInitSet _ (hasLab_dictInitSet _ h)
  · exact h

theorem processEntry_hasLab (st : PState) (entry : String × List String)
    {T L : String} (h : (T, L) ∈ entryOccs entry) :
    HasLab (processEntry st entry).node_type_instances_labels T L := by
  by_cases hex : ∃ a b c, parse_triple_string entry.1 = [a, b, c]
  · obtain ⟨s, et, o, hp⟩ := hex
    have hocc : entryOccs entry = edgeOccs s o entry.2 := by
      simp [entryOccs, hp]
    rw [hocc] at h
    simp only [processEntry, hp]
    refine edges_hasLab _ _ s o entry.2 _ ?_ ?_ T L h
    · exact alookup_dictInitSet_isSome_mono o
        (alookup_dictInitSet_self_isSome _ s)
    · exact alookup_dictInitSet_self_isSome _ o
  · rw [entryOccs_not3 hex] at h
    simp at h

theorem graph_hasLab :
    ∀ (data : List (String × List String)) (st : PState) (T L : String),
      (T, L) ∈ occList data →
      HasLab ((data.foldl processEntry st).node_type_instances_labels) T L := by
  intro data
  induction data with
  | nil =>
    intro st T L h
    simp [occList] at h
  | cons entry rest ih =>
    intro st T L h
    have hsplit : occList (entry :: rest) = entryOccs entry ++ occList rest :=
      rfl
    rw [hsplit] at h
    rw [List.foldl_cons]
    rcases List.mem_append.mp h with h | h
    · exact foldl_preserve
        (P := fun s => HasLab s.node_type_instances_labels T L)
        (fun s e2 hp2 => processEntry_hasLab_mono s e2 hp2) rest _
        (processEntry_hasLab st entry h)
    · exact ih (processEntry st entry) T L h

theorem processEdge_nti_src (A B : Nat) (S O : String) (st : PState)
    (e : String) (hG : MapGood st.instance_map) {H : Nat} {ids : List Nat}
    {i : Nat}
    (hl : alookup (processEdge A B S O st e).node_type_instances H = some ids)
    (hi : i ∈ ids) :
    (∃ ids0, alookup st.node_type_instances H = some ids0 ∧ i ∈ ids0) ∨
    (∃ a b c, parse_triple_string e = [a, b, c] ∧
      ((H = A ∧ i = md5Int a) ∨ (H = B ∧ i = md5Int c))) := by
  by_cases hex : ∃ a b c, parse_triple_string e = [a, b, c]
  · obtain ⟨a, b2, c, hp⟩ := hex
    simp only [processEdge, hp] at hl
    have e1 : (get_id a st.instance_map).1 = md5Int a := get_id_fst hG
    have e2 : (get_id c (get_id a st.instance_map).2).1 = md5Int c :=
      get_id_fst (get_id_good hG)
    rcases alookup_dictAddToSet_src hl hi with h1 | h1
    · obtain ⟨ids0, hl0, hi0⟩ := h1
      rcases alookup_dictAddToSet_src hl0 hi0 with h2 | h2
      · exact Or.inl h2
      · exact Or.inr ⟨a, b2, c, hp, Or.inl ⟨h2.1, by rw [h2.2, e1]⟩⟩
    · exact Or.inr ⟨a, b2, c, hp, Or.inr ⟨h1.1, by rw [h1.2, e2]⟩⟩
  · rw [processEdge_not3 hex] at hl
    exact Or.inl ⟨ids, hl, hi⟩

theorem edges_nti_src (S O : String) (A B : Nat) (hA : A = md5Int S)
    (hB : B = md5Int O) :
    ∀ (edges : List String) (st : PState), MapGood st.instance_map →
      ∀ {H : Nat} {ids : List Nat} {i : Nat},
        alookup ((edges.foldl (processEdge A B S O)
          st).node_type_instances) H = some ids → i ∈ ids →
        (∃ ids0, alookup st.node_type_instances H = some ids0 ∧ i ∈ ids0) ∨
        (∃ TL, TL ∈ edgeOccs S O edges ∧ md5Int TL.1 = H ∧ md5Int TL.2 = i) := by
  intro edges
  induction edges with
  | nil =>
    intro st hG H ids i hl hi
    exact Or.inl ⟨ids, hl, hi⟩
  | cons e t ih =>
    intro st hG H ids i hl hi
    rw [List.foldl_cons] at hl
    have hG' : MapGood (processEdge A B S O st e).instance_map :=
      processEdge_im_good hG
    have hsplit : edgeOccs S O (e :: t) = edgeOcc1 S O e ++ edgeOccs S O t :=
      rfl
    rcases ih (processEdge A B S O st e) hG' hl hi with h1 | h1
    · obtain ⟨ids0, hl0, hi0⟩ := h1
      rcases processEdge_nti_src A B S O st e hG hl0 hi0 with h2 | h2
      · exact Or.inl h2
      · obtain ⟨a, b2, c, hp, hcase⟩ := h2
        have hocc : edgeOcc1 S O e = [(S, a), (O, c)] := by
          simp [edgeOcc1, hp]
        rcases hcase with ⟨hH, hieq⟩ | ⟨hH, hieq⟩
        · refine Or.inr ⟨(S, a), ?_, ?_, ?_⟩
          · rw [hsplit, hocc]
            exact List.mem_append_left _ (List.mem_cons_self _ _)
          · rw [hH, hA]
          · rw [hieq]
        · refine Or.inr ⟨(O, c), ?_, ?_, ?_⟩
          · rw [hsplit, hocc]
            exact List.mem_append_left _
              (List.mem_cons_of_mem _ (List.mem_cons_self _ _))
          · rw [hH, hB]
          · rw [hieq]
    · obtain ⟨TL, hTL, hr1, hr2⟩ := h1
      refine Or.inr ⟨TL, ?_, hr1, hr2⟩
      rw [hsplit]
      exact List.mem_append_right _ hTL

theorem processEntry_nti_src (st : PState) (entry : String × List String)
    (hG : StGood st) {H : Nat} {ids : List Nat} {i : Nat}
    (hl : alookup (processEntry st entry).node_type_instances H = some ids)
    (hi : i ∈ ids) :
    (∃ ids0, alookup st.node_type_instances H = some ids0 ∧ i ∈ ids0) ∨
    (∃ TL, TL ∈ entryOccs entry ∧ md5Int TL.1 = H ∧ md5Int TL.2 = i) := by
  by_cases hex : ∃ a b c, parse_triple_string entry.1 = [a, b, c]
  · obtain ⟨s, et, o, hp⟩ := hex
    simp only [processEntry, hp] at hl
    have hA : (get_id s st.node_type_map).1 = md5Int s := get_id_fst hG.1
    have hB : (get_id o (get_id s st.node_type_map).2).1 = md5Int o :=
      get_id_fst (get_id_good hG.1)
    have hocc : entryOccs entry = edgeOccs s o entry.2 := by
      simp [entryOccs, hp]
    rcases edges_nti_src s o ((get_id s st.node_type_map).1)
      ((get_id o (get_id s st.node_type_map).2).1) hA hB entry.2
      { node_type_map := (get_id o (get_id s st.node_type_map).2).2,
        edge_type_map := (get_id et st.edge_type_map).2,
        instance_map := st.instance_map,
        node_type_instances :=
          dictInitSet (dictInitSet st.node_type_instances
            ((get_id s st.node_type_map).1))
            ((get_id o (get_id s st.node_type_map).2).1),
        node_type_instances_labels :=
          dictInitSet (dictInitSet st.node_type_instances_labels s) o }
      hG.2 hl hi
      with h1 | h1
    · obtain ⟨ids0, hl0, hi0⟩ := h1
      obtain ⟨ids1, hl1, hi1⟩ := alookup_dictInitSet_src hl0 hi0
      obtain ⟨ids2, hl2, hi2⟩ := alookup_dictInitSet_src hl1 hi1
      exact Or.inl ⟨ids2, hl2, hi2⟩
    · obtain ⟨TL, hTL, hr1, hr2⟩ := h1
      refine Or.inr ⟨TL, ?_, hr1, hr2⟩
      rw [hocc]
      exact hTL
  · rw [processEntry_not3 hex] at hl
    rw [entryOccs_not3 hex]
    exact Or.inl ⟨ids, hl, hi⟩

theorem graph_nti_src :
    ∀ (data : List (String × List String)) (st : PState), StGood st →
      ∀ {H : Nat} {ids : List Nat} {i : Nat},
        alookup ((data.foldl processEntry st).node_type_instances) H
          = some ids → i ∈ ids →
        (∃ ids0, alookup st.node_type_instances H = some ids0 ∧ i ∈ ids0) ∨
        (∃ TL, TL ∈ occList data ∧ md5Int TL.1 = H ∧ md5Int TL.2 = i) := by
  intro data
  induction data with
  | nil =>
    intro st hG H ids i hl hi
    exact Or.inl ⟨ids, hl, hi⟩
  | cons entry rest ih =>
    intro st hG H ids i hl hi
    rw [List.foldl_cons] at hl
    have hsplit : occList (entry :: rest) = entryOccs entry ++ occList rest :=
      rfl
    rcases ih (processEntry st entry) (processEntry_stGood st entry hG) hl hi
      with h1 | h1
    · obtain ⟨ids0, hl0, hi0⟩ := h1
      rcases processEntry_nti_src st entry hG hl0 hi0 with h2 | h2
      · exact Or.inl h2
      · obtain ⟨TL, hTL, hr1, hr2⟩ := h2
        refine Or.inr ⟨TL, ?_, hr1, hr2⟩
        rw [hsplit]
        exact List.mem_append_left _ hTL
    · obtain ⟨TL, hTL, hr1, hr2⟩ := h1
      refine Or.inr ⟨TL, ?_, hr1, hr2⟩
      rw [hsplit]
      exact List.mem_append_right _ hTL

theorem edgeOccs_fst {S O : String} :
    ∀ {edges : List String} {TL : String × String},
      TL ∈ edgeOccs S O edges → TL.1 = S ∨ TL.1 = O := by
  intro edges
  induction edges with
  | nil => intro TL h; simp [edgeOccs] at h
  | cons e t ih =>
    intro TL h
    have hsplit : edgeOccs S O (e :: t) = edgeOcc1 S O e ++ edgeOccs S O t :=
      rfl
    rw [hsplit] at h
    rcases List.mem_append.mp h with h | h
    · by_cases hex : ∃ a b c, parse_triple_string e = [a, b, c]
      · obtain ⟨a, b2, c, hp⟩ := hex
        have hocc : edgeOcc1 S O e = [(S, a), (O, c)] := by
          simp [edgeOcc1, hp]
        rw [hocc] at h
        rcases List.mem_cons.mp h with h | h
        · exact Or.inl (congrArg Prod.fst h)
        · rcases List.mem_cons.mp h with h | h
          · exact Or.inr (congrArg Prod.fst h)
          · simp at h
      · rw [edgeOcc1_not3 hex] at h
        simp at h
    · exact ih h

theorem occ_fst_mem_typeLabels :
    ∀ (data : List (String × List String)) {TL : String × String},
      TL ∈ occList data → TL.1 ∈ typeLabels data := by
  intro data
  induction data with
  | nil => intro TL h; simp [occList] at h
  | cons entry rest ih =>
    intro TL h
    have hsplit : occList (entry :: rest) = entryOccs entry ++ occList rest :=
      rfl
    have htypes : typeLabels (entry :: rest)
        = entryTypes entry ++ typeLabels rest := rfl
    rw [hsplit] at h
    rw [htypes]
    rcases List.mem_append.mp h with h | h
    · refine List.mem_append_left _ ?_
      by_cases hex : ∃ a b c, parse_triple_string entry.1 = [a, b, c]
      · obtain ⟨s, et, o, hp⟩ := hex
        have hocc : entryOccs entry = edgeOccs s o entry.2 := by
          simp [entryOccs, hp]
        have htyp : entryTypes entry = [s, o] := by
          simp [entryTypes, hp]
        rw [hocc] at h
        rw [htyp]
        rcases edgeOccs_fst h with h1 | h1
        · rw [h1]; exact List.mem_cons_self _ _
        · rw [h1]; exact List.mem_cons_of_mem _ (List.mem_cons_self _ _)
      · rw [entryOccs_not3 hex] at h
        simp at h
    · exact List.mem_append_right _ (ih h)

theorem alookup_finalizeIndex {α β : Type} [DecidableEq α] [LinearOrder β]
    (d : List (α × List β)) (k : α) :
    alookup (finalizeIndex d) k
      = Option.map (fun l => l.insertionSort (· ≤ ·)) (alookup d k) := by
  induction d with
  | nil => rfl
  | cons kv t ih =>
    by_cases hk : k = kv.1
    · simp [finalizeIndex, alookup, hk]
    · simp only [finalizeIndex, List.map_cons, alookup, if_neg hk]
      exact ih

/-- C5: assuming the node-type labels of the graph are collision-free under
the MD5-derived identifier, every instance identifier listed in the
finalized ID index entry keyed by a processed type label's identifier is the
MD5-derived identifier of some instance label listed in the finalized label
index entry keyed by that type label. -/
theorem c5_round_trip (data : List (String × List String))
    (hinj : ∀ T1 ∈ typeLabels data, ∀ T2 ∈ typeLabels data,
      md5Int T1 = md5Int T2 → T1 = T2)
    (T : String) (hT : T ∈ typeLabels data) (ids : List Nat)
    (hids : alookup (final_node_instances data) (md5Int T) = some ids)
    (i : Nat) (hi : i ∈ ids) :
    ∃ labs, alookup (final_node_instances_labels data) T = some labs ∧
      ∃ L ∈ labs, md5Int L = i := by
  rw [final_node_instances, alookup_finalizeIndex] at hids
  cases h0 : alookup (processGraph data).node_type_instances (md5Int T) with
  | none => rw [h0] at hids; simp at hids
  | some ids0 =>
    rw [h0] at hids
    simp at hids
    have hi0 : i ∈ ids0 := by
      rw [← hids] at hi
      exact ((List.perm_insertionSort _ ids0).mem_iff).mp hi
    have hsrc := graph_nti_src data initState ⟨mapGood_nil, mapGood_nil⟩ h0 hi0
    rcases hsrc with ⟨ids1, habs, _⟩ | ⟨TL, hTLocc, hTL1, hTL2⟩
    · simp [initState, alookup] at habs
    · have hT' : TL.1 ∈ typeLabels data := occ_fst_mem_typeLabels data hTLocc
      have hTeq : TL.1 = T := hinj TL.1 hT' T hT hTL1
      have hpair : (TL.1, TL.2) ∈ occList data := by
        rw [Prod.mk.eta]
        exact hTLocc
      obtain ⟨labs0, hl0, hm0⟩ := graph_hasLab data initState TL.1 TL.2 hpair
      rw [hTeq] at hl0
      have hl1 : alookup (processGraph data).node_type_instances_labels T
          = some labs0 := hl0
      refine ⟨labs0.insertionSort (· ≤ ·), ?_, TL.2, ?_, hTL2⟩
      · rw [final_node_instances_labels, alookup_finalizeIndex, hl1]
        rfl
      · exact ((List.perm_insertionSort _ labs0).mem_iff).mpr hm0

/-- Witness for C5 on the graph with one relation key (A,r,B) and one edge
(x,r,y): the entry keyed by A's identifier is covered by A's label entry. -/
theorem c5_round_trip_witness :
    ∃ labs, alookup
        (final_node_instances_labels [("(A,r,B)", ["(x,r,y)"])]) "A"
        = some labs ∧
      ∃ L ∈ labs, md5Int L = md5Int "x" := by
  set_option maxRecDepth 100000 in
  refine c5_round_trip [("(A,r,B)", ["(x,r,y)"])] ?_ "A" (by decide)
    [md5Int "x"] (by decide) (md5Int "x") (by decide)
  decide
